import Mathlib

/-!
Verification of the RISC-V MMU layer (`src/arch/riscv/mmu.cpp`): the generic
page-table walker `riscv_pt_walk`, the `arch_mmu_map` / `arch_mmu_unmap` /
`arch_mmu_query` operations built on it, the TLB range invalidation performed
by `arch_mmu_unmap`, and the one-time ASID width probe `riscv_early_mmu_init`.

The embedding fixes the Sv39 configuration (`RISCV_MMU == 39`): 3 page-table
levels, 512-entry tables, 4 KiB pages.  The header `arch/riscv/mmu.h` and the
generic `arch/mmu.h` / `lk/err.h` headers are not part of the sources, so the
numeric constants below (PTE bit layout, flag bits, error codes, the satp ASID
field position) are modelled from the spec's description of the data model;
only their positions/distinctness matter, never their concrete values.

Machine words are modelled as `Nat` with an explicit `% 2 ^ 64` exactly where
the C code can wrap (the `*vaddr += PAGE_SIZE` / `paddr += PAGE_SIZE` cursor
updates and the `base + size - 1` bounds computation); all other operations
(`&&&`, `|||`, `>>>`, `<<<` with in-range operands) cannot overflow 64 bits.
Physical memory holding the page tables is a function `table base → slot → pte`;
the physical-page allocator is a free list of table page addresses, and the
TLB shootdown is recorded as an event in the machine state.
-/

namespace LkRiscvMmu

/-! ## Constants (modelled from the spec; headers are not in the sources) -/

def PAGE_SIZE : Nat := 4096

def PAGE_SIZE_SHIFT : Nat := 12

def RISCV_MMU_PT_SHIFT : Nat := 9

def RISCV_MMU_PT_ENTRIES : Nat := 512

/-- Sv39: three translation levels (level 2 = TOP, level 0 = 4 KiB pages). -/
def RISCV_MMU_PT_LEVELS : Nat := 3

/-- Sv39 canonical virtual addresses have 39 significant bits. -/
def RISCV_MMU_CANONICAL_MASK : Nat := 2 ^ 39 - 1

def RISCV_PTE_V : Nat := 1

def RISCV_PTE_R : Nat := 2

def RISCV_PTE_W : Nat := 4

def RISCV_PTE_X : Nat := 8

def RISCV_PTE_U : Nat := 16

def RISCV_PTE_G : Nat := 32

def RISCV_PTE_A : Nat := 64

def RISCV_PTE_D : Nat := 128

/-- R|W|X: a valid entry with none of these set is a link to a child table. -/
def RISCV_PTE_PERM_MASK : Nat := RISCV_PTE_R ||| RISCV_PTE_W ||| RISCV_PTE_X

def RISCV_PTE_PPN_SHIFT : Nat := 10

/-- `RISCV_PTE_PPN(pte)`: physical address carried by a PTE. -/
def RISCV_PTE_PPN (pte : Nat) : Nat := (pte >>> RISCV_PTE_PPN_SHIFT) <<< PAGE_SIZE_SHIFT

/-- `RISCV_PTE_PPN_TO_PTE(paddr)`: PPN field of a PTE from a physical address. -/
def RISCV_PTE_PPN_TO_PTE (paddr : Nat) : Nat := (paddr >>> PAGE_SIZE_SHIFT) <<< RISCV_PTE_PPN_SHIFT

def ARCH_MMU_FLAG_PERM_USER : Nat := 4

def ARCH_MMU_FLAG_PERM_RO : Nat := 8

def ARCH_MMU_FLAG_PERM_NO_EXECUTE : Nat := 16

def ARCH_ASPACE_FLAG_KERNEL : Nat := 1

/-! Error codes from `lk/err.h` (not in the sources; values modelled from the
spec's error taxonomy — only distinctness matters). -/

def NO_ERROR : Int := 0

def ERR_NOT_FOUND : Int := -2

def ERR_NO_MEMORY : Int := -5

def ERR_ALREADY_EXISTS : Int := -14

def ERR_OUT_OF_RANGE : Int := -37

/-! ## Permission flag translation (`mmu_flags_to_pte` / `pte_flags_to_mmu_flags`) -/

def mmu_flags_to_pte (flags : Nat) : Nat :=
  (if flags &&& ARCH_MMU_FLAG_PERM_USER ≠ 0 then RISCV_PTE_U else 0) |||
  (if flags &&& ARCH_MMU_FLAG_PERM_RO ≠ 0 then RISCV_PTE_R else RISCV_PTE_R ||| RISCV_PTE_W) |||
  (if flags &&& ARCH_MMU_FLAG_PERM_NO_EXECUTE ≠ 0 then 0 else RISCV_PTE_X)

def pte_flags_to_mmu_flags (pte : Nat) : Nat :=
  (if pte &&& (RISCV_PTE_R ||| RISCV_PTE_W) = RISCV_PTE_R then ARCH_MMU_FLAG_PERM_RO else 0) |||
  (if pte &&& RISCV_PTE_X ≠ 0 then 0 else ARCH_MMU_FLAG_PERM_NO_EXECUTE) |||
  (if pte &&& RISCV_PTE_U ≠ 0 then ARCH_MMU_FLAG_PERM_USER else 0)

/-! ## Index and granule helpers -/

/-- `vaddr_to_index`: slot index of `va` in the level-`level` table. -/
def vaddr_to_index (va level : Nat) : Nat :=
  (((va &&& RISCV_MMU_CANONICAL_MASK) >>> PAGE_SIZE_SHIFT) >>> (level * RISCV_MMU_PT_SHIFT)) &&&
    (RISCV_MMU_PT_ENTRIES - 1)

def page_size_per_level (level : Nat) : Nat :=
  1 <<< (PAGE_SIZE_SHIFT + level * RISCV_MMU_PT_SHIFT)

def page_mask_per_level (level : Nat) : Nat := page_size_per_level level - 1

/-! ## Machine state -/

/-- Physical memory holding the page tables: table base address → slot → PTE. -/
def Mem : Type := Nat → Nat → Nat

def writeSlot (m : Mem) (t i v : Nat) : Mem :=
  fun t2 j => if t2 = t ∧ j = i then v else m t2 j

/-- `memset(pte, 0, PAGE_SIZE)` on a freshly allocated table page. -/
def zeroTable (m : Mem) (t : Nat) : Mem :=
  fun t2 j => if t2 = t then 0 else m t2 j

/-- Page-table memory, the pmm free list feeding `alloc_ptable`, and the log of
`riscv_tlb_flush_vma_range` invocations (base, page count), newest first. -/
structure MMUState where
  mem : Mem
  free : List Nat
  flushes : List (Nat × Nat)

/-- `alloc_ptable`: take a page from the pmm and zero it; `none` models a NULL
return from `pmm_alloc_page`. -/
def alloc_ptable (s : MMUState) : Option (Nat × MMUState) :=
  match s.free with
  | [] => none
  | pa :: rest => some (pa, { s with mem := zeroTable s.mem pa, free := rest })

/-- `arch_aspace_t` (the page table is addressed by its physical base;
`pt_virt` is the kernel-virtual alias of the same table). -/
structure arch_aspace where
  base : Nat
  size : Nat
  flags : Nat
  pt_phys : Nat

/-- The C expression `aspace->base + aspace->size - 1` on `uint64_t`. -/
def aspace_limit (a : arch_aspace) : Nat := (a.base + a.size + (2 ^ 64 - 1)) % 2 ^ 64

/-! ## The generic page-table walker -/

inductive walk_cb_ret where
  | HALT
  | RESTART
  | COMMIT_AND_RESTART
  | COMMIT_AND_HALT
  | ALLOC_PT
deriving DecidableEq

/-- A walker visitor: `(level, index, *pte, *vaddr, *err)` plus the visitor's
captured state; returns the control reply together with the values left in the
`pte` / `vaddr` / `err` out-parameters and the new captured state.  `none`
models a visitor that does not return (`PANIC`/failed `DEBUG_ASSERT`). -/
def PageWalkCb (σ : Type) : Type :=
  Nat → Nat → Nat → Nat → Int → σ → Option (walk_cb_ret × Nat × Nat × Int × σ)

/-- Outcome of one descent (`restart:` label to the next `goto restart` or
`return`).  `panic` models a failed `DEBUG_ASSERT(level < RISCV_MMU_PT_LEVELS)`
or a visitor that panicked; it halts the machine, the carried state is the
state at the moment of the halt. -/
inductive StepOut (σ : Type) where
  | halt (err : Int) (s : MMUState) (cbs : σ)
  | restart (vaddr : Nat) (err : Int) (s : MMUState) (cbs : σ)
  | panic (s : MMUState) (cbs : σ)

/-- The inner loop of `riscv_pt_walk`: descend from `level` in table `tbase`,
automatically stepping through valid link entries, and consult the visitor at
the first invalid or leaf entry. -/
def riscv_pt_walk_loop {σ : Type} (cb : PageWalkCb σ) (level : Nat) (vaddr : Nat)
    (s : MMUState) (tbase : Nat) (err : Int) (cbs : σ) : StepOut σ :=
  let index := vaddr_to_index vaddr level
  let pte := s.mem tbase index
  if pte &&& RISCV_PTE_V ≠ 0 ∧ pte &&& RISCV_PTE_PERM_MASK = 0 then
    -- next level page table pointer (RWX = 0): go one level deeper
    match level with
    | 0 => .panic s cbs
    | l + 1 => riscv_pt_walk_loop cb l vaddr s (RISCV_PTE_PPN pte) err cbs
  else
    -- non valid entry or valid terminal entry: ask the visitor
    match cb level index pte vaddr err cbs with
    | none => .panic s cbs
    | some (ret, pte2, vaddr2, err2, cbs2) =>
      match ret with
      | .HALT => .halt err2 s cbs2
      | .RESTART => .restart vaddr2 err2 s cbs2
      | .COMMIT_AND_RESTART =>
        .restart vaddr2 err2 { s with mem := writeSlot s.mem tbase index pte2 } cbs2
      | .COMMIT_AND_HALT =>
        .halt err2 { s with mem := writeSlot s.mem tbase index pte2 } cbs2
      | .ALLOC_PT =>
        match alloc_ptable s with
        | none => .halt ERR_NO_MEMORY s cbs2
        | some (pa, s2) =>
          let s3 := { s2 with
            mem := writeSlot s2.mem tbase index (RISCV_PTE_PPN_TO_PTE pa ||| RISCV_PTE_V) }
          match level with
          | 0 => .panic s3 cbs2
          | l + 1 => riscv_pt_walk_loop cb l vaddr2 s3 pa err2 cbs2

/-- Result of a whole walk.  `fuelOut` is an artifact of the embedding (the C
loop has no fuel); every theorem below supplies enough fuel that it is never
reached. -/
inductive WalkResult (σ : Type) where
  | done (err : Int) (s : MMUState) (cbs : σ)
  | panic (s : MMUState) (cbs : σ)
  | fuelOut (vaddr : Nat) (err : Int) (s : MMUState) (cbs : σ)

/-- `riscv_pt_walk`: restart-based walk from the TOP level. -/
def riscv_pt_walk {σ : Type} (cb : PageWalkCb σ) (fuel : Nat) (vaddr : Nat) (root : Nat)
    (s : MMUState) (err : Int) (cbs : σ) : WalkResult σ :=
  match fuel with
  | 0 => .fuelOut vaddr err s cbs
  | f + 1 =>
    match riscv_pt_walk_loop cb (RISCV_MMU_PT_LEVELS - 1) vaddr s root err cbs with
    | .halt e s2 c2 => .done e s2 c2
    | .panic s2 c2 => .panic s2 c2
    | .restart v2 e2 s2 c2 => riscv_pt_walk cb f v2 root s2 e2 c2

/-! ## The three visitors and the public operations -/

/-- Result of `arch_mmu_map` / `arch_mmu_unmap`: returned status plus the
machine state (the visitor's locals go out of scope). -/
inductive MMUResult where
  | done (status : Int) (s : MMUState)
  | panic
  | fuelOut

/-- The `map_cb` lambda of `arch_mmu_map`; captured state is `(paddr, count)`.
On a valid entry the source panics (`PANIC_UNIMPLEMENTED_MSG("terminal large
page entry")` / `"terminal page entry"`) on both level branches; the
`*err = ERR_ALREADY_EXISTS; return HALT;` lines after it are unreachable. -/
def map_cb (aspace : arch_aspace) (flags : Nat) : PageWalkCb (Nat × Nat) :=
  fun level _index pte vaddr err pc =>
    let paddr := pc.1
    let count := pc.2
    if pte &&& RISCV_PTE_V ≠ 0 then
      none
    else if 0 < level then
      some (.ALLOC_PT, pte, vaddr, err, (paddr, count))
    else
      let temp_pte := RISCV_PTE_PPN_TO_PTE paddr ||| mmu_flags_to_pte flags |||
        RISCV_PTE_A ||| RISCV_PTE_D ||| RISCV_PTE_V |||
        (if aspace.flags &&& ARCH_ASPACE_FLAG_KERNEL ≠ 0 then RISCV_PTE_G else 0)
      let vaddr2 := (vaddr + PAGE_SIZE) % 2 ^ 64
      let paddr2 := (paddr + PAGE_SIZE) % 2 ^ 64
      let count2 := count - 1
      if count2 = 0 then some (.COMMIT_AND_HALT, temp_pte, vaddr2, err, (paddr2, count2))
      else some (.COMMIT_AND_RESTART, temp_pte, vaddr2, err, (paddr2, count2))

def arch_mmu_map (aspace : arch_aspace) (vaddr paddr count flags : Nat)
    (s : MMUState) : MMUResult :=
  if count = 0 then .done NO_ERROR s
  else if vaddr < aspace.base ∨ aspace_limit aspace < vaddr then .done ERR_OUT_OF_RANGE s
  else
    match riscv_pt_walk (map_cb aspace flags) count vaddr aspace.pt_phys s NO_ERROR
        (paddr, count) with
    | .done e s2 _ => .done e s2
    | .panic _ _ => .panic
    | .fuelOut _ _ _ _ => .fuelOut

/-- Result of `arch_mmu_query`: status and the values left in the `paddr` /
`flags` out-parameters (`none` = never written).  The query visitor only ever
replies HALT, so the machine state is unchanged and not returned. -/
inductive QueryResult where
  | done (status : Int) (paddrOut : Option Nat) (flagsOut : Option Nat)
  | panic
  | fuelOut
deriving DecidableEq

/-- The `query_cb` lambda of `arch_mmu_query`; captured state is the pair of
out-parameters.  A valid entry with no permission bits fails the
`DEBUG_ASSERT(*pte & RISCV_PTE_PERM_MASK)` (the walker never produces it). -/
def query_cb : PageWalkCb (Option Nat × Option Nat) :=
  fun level _index pte vaddr _err outs =>
    if pte &&& RISCV_PTE_V ≠ 0 then
      if pte &&& RISCV_PTE_PERM_MASK = 0 then none
      else
        let pa := RISCV_PTE_PPN pte ||| (vaddr &&& page_mask_per_level level)
        some (.HALT, pte, vaddr, NO_ERROR, (some pa, some (pte_flags_to_mmu_flags pte)))
    else
      some (.HALT, pte, vaddr, ERR_NOT_FOUND, outs)

def arch_mmu_query (aspace : arch_aspace) (vaddr : Nat) (s : MMUState) : QueryResult :=
  if vaddr < aspace.base ∨ aspace_limit aspace < vaddr then .done ERR_OUT_OF_RANGE none none
  else
    match riscv_pt_walk query_cb 1 vaddr aspace.pt_phys s NO_ERROR (none, none) with
    | .done e _ outs => .done e outs.1 outs.2
    | .panic _ _ => .panic
    | .fuelOut _ _ _ _ => .fuelOut

/-- The `unmap_cb` lambda of `arch_mmu_unmap`; captured state is `count`.
A valid leaf at level > 0 is `PANIC_UNIMPLEMENTED_MSG("cannot handle unmapping
of large page")`. -/
def unmap_cb : PageWalkCb Nat :=
  fun level _index pte vaddr err count =>
    if pte &&& RISCV_PTE_V ≠ 0 then
      if pte &&& RISCV_PTE_PERM_MASK = 0 then none
      else if 0 < level then none
      else
        let vaddr2 := (vaddr + PAGE_SIZE) % 2 ^ 64
        let count2 := count - 1
        if count2 = 0 then some (.COMMIT_AND_HALT, 0, vaddr2, err, count2)
        else some (.COMMIT_AND_RESTART, 0, vaddr2, err, count2)
    else
      let vaddr2 := (vaddr + PAGE_SIZE) % 2 ^ 64
      let count2 := count - 1
      if count2 = 0 then some (.HALT, pte, vaddr2, err, count2)
      else some (.RESTART, pte, vaddr2, err, count2)

/-- `riscv_tlb_flush_vma_range`: SBI remote fence plus local per-page fences,
recorded as one range-invalidation event. -/
def riscv_tlb_flush_vma_range (base count : Nat) (s : MMUState) : MMUState :=
  if count = 0 then s else { s with flushes := (base, count) :: s.flushes }

def arch_mmu_unmap (aspace : arch_aspace) (vaddr count : Nat) (s : MMUState) : MMUResult :=
  if count = 0 then .done NO_ERROR s
  else if vaddr < aspace.base ∨ aspace_limit aspace < vaddr then .done ERR_OUT_OF_RANGE s
  else
    match riscv_pt_walk unmap_cb count vaddr aspace.pt_phys s NO_ERROR count with
    | .done e s2 _ => .done e (riscv_tlb_flush_vma_range vaddr count s2)
    | .panic _ _ => .panic
    | .fuelOut _ _ _ _ => .fuelOut

/-! ## ASID width probe (`riscv_early_mmu_init`) -/

def RISCV_SATP_ASID_SHIFT : Nat := 44

def RISCV_SATP_ASID_MASK : Nat := 0xffff

/-- 64-bit complement. -/
def not64 (x : Nat) : Nat := x ^^^ (2 ^ 64 - 1)

/-- Modelled from the spec: a hardware write to the `satp` CSR.  `hwAsid` is
the set of ASID bits the hardware implements; writing the register ties the
unimplemented ASID bits to zero, so a read-back sees only the bits that
"stuck". -/
def satp_csr_write (hwAsid v : Nat) : Nat :=
  (v &&& not64 (RISCV_SATP_ASID_MASK <<< RISCV_SATP_ASID_SHIFT)) |||
    (((v >>> RISCV_SATP_ASID_SHIFT) &&& RISCV_SATP_ASID_MASK &&& hwAsid) <<<
      RISCV_SATP_ASID_SHIFT)

/-- `riscv_early_mmu_init`: write all-ones into the ASID field, record which
bits stuck as `riscv_asid_mask`, restore the original value.  Returns the
final `satp` value and the recorded mask. -/
def riscv_early_mmu_init (hwAsid satp0 : Nat) : Nat × Nat :=
  let satp_orig := satp0
  let satp := satp_orig ||| (RISCV_SATP_ASID_MASK <<< RISCV_SATP_ASID_SHIFT)
  let satp1 := satp_csr_write hwAsid satp
  let riscv_asid_mask := (satp1 >>> RISCV_SATP_ASID_SHIFT) &&& RISCV_SATP_ASID_MASK
  let satp2 := satp_csr_write hwAsid satp_orig
  (satp2, riscv_asid_mask)

/-! ## Specification-side observations of the page-table structure

`findStop` is the pure descent of the walker (no visitor): the stopping point
the walker hands to its visitor for a given address, `none` when the descent
would underflow below level 0 (the walker's fatal `DEBUG_ASSERT`).  `view` is
the translation the structure holds for an address; `tablesBelow` collects
every table page reachable from a root, once per path reaching it. -/

def findStop (m : Mem) : Nat → Nat → Nat → Option (Nat × Nat × Nat)
  | 0, tbase, va =>
    if m tbase (vaddr_to_index va 0) &&& RISCV_PTE_V ≠ 0 ∧
        m tbase (vaddr_to_index va 0) &&& RISCV_PTE_PERM_MASK = 0 then none
    else some (0, tbase, vaddr_to_index va 0)
  | l + 1, tbase, va =>
    if m tbase (vaddr_to_index va (l + 1)) &&& RISCV_PTE_V ≠ 0 ∧
        m tbase (vaddr_to_index va (l + 1)) &&& RISCV_PTE_PERM_MASK = 0 then
      findStop m l (RISCV_PTE_PPN (m tbase (vaddr_to_index va (l + 1)))) va
    else some (l + 1, tbase, vaddr_to_index va (l + 1))

inductive View where
  | bad
  | hole
  | leaf (level : Nat) (pte : Nat)
deriving DecidableEq

def view (m : Mem) (level tbase va : Nat) : View :=
  match findStop m level tbase va with
  | none => .bad
  | some (l, t, i) => if m t i &&& RISCV_PTE_V ≠ 0 then .leaf l (m t i) else .hole

def tablesBelow (m : Mem) : Nat → Nat → List Nat
  | 0, t => [t]
  | l + 1, t =>
    t :: (List.range RISCV_MMU_PT_ENTRIES).flatMap (fun j =>
      let pte := m t j
      if pte &&& RISCV_PTE_V ≠ 0 ∧ pte &&& RISCV_PTE_PERM_MASK = 0 then
        tablesBelow m l (RISCV_PTE_PPN pte)
      else [])

/-- Canonical page number of a virtual address: the Sv39 bits that select the
three table indices.  Two addresses follow the same walker path iff their
canonical page numbers agree. -/
def canPage (va : Nat) : Nat := va / 4096 % 2 ^ 27

/-- The returned status of an MMU operation, `none` for a panic or the
fuel artifact. -/
def MMUResult.status : MMUResult → Option Int
  | .done e _ => some e
  | .panic => none
  | .fuelOut => none

/-! ## Visitor-invocation instrumentation

`traceCb` wraps an arbitrary visitor so that every invocation the walker
makes is recorded; the walker itself is untouched, so what the trace shows is
exactly where `riscv_pt_walk` consults its callback. -/

/-- One visitor invocation: the arguments the walker passed. -/
structure Visit where
  level : Nat
  index : Nat
  pte : Nat
  vaddr : Nat
deriving DecidableEq

/-- Wrap a visitor to log each invocation. -/
def traceCb {σ : Type} (cb : PageWalkCb σ) : PageWalkCb (σ × List Visit) :=
  fun level index pte vaddr err sc =>
    match cb level index pte vaddr err sc.1 with
    | none => none
    | some (r, p2, v2, e2, c2) =>
      some (r, p2, v2, e2, (c2, sc.2 ++ [⟨level, index, pte, vaddr⟩]))

/-- The log carried in a step outcome. -/
def stepVisits {σ : Type} : StepOut (σ × List Visit) → List Visit
  | .halt _ _ c => c.2
  | .restart _ _ _ c => c.2
  | .panic _ c => c.2

/-- The log carried in a walk outcome. -/
def walkVisits {σ : Type} : WalkResult (σ × List Visit) → List Visit
  | .done _ _ c => c.2
  | .panic _ c => c.2
  | .fuelOut _ _ _ c => c.2

/-! ## Bit-arithmetic bridging lemmas -/

theorem or_eq_add {n a b : Nat} (ha : 2 ^ n ∣ a) (hb : b < 2 ^ n) : a ||| b = a + b := by
  obtain ⟨c, rfl⟩ := ha
  have htb : ∀ i, n ≤ i → b.testBit i = false := fun i hi =>
    Nat.testBit_eq_false_of_lt (lt_of_lt_of_le hb (Nat.pow_le_pow_right (by norm_num) hi))
  have hmod : (2 ^ n * c ||| b) % 2 ^ n = b := by
    apply Nat.eq_of_testBit_eq
    intro i
    rw [Nat.testBit_mod_two_pow, Nat.testBit_or]
    rcases lt_or_ge i n with h | h
    · have hlow : (2 ^ n * c).testBit i = false := by
        rw [mul_comm, ← Nat.shiftLeft_eq, Nat.testBit_shiftLeft]
        simp [Nat.not_le.mpr h]
      simp [h, hlow]
    · simp [Nat.not_lt.mpr h, htb i h]
  have hdiv : (2 ^ n * c ||| b) / 2 ^ n = c := by
    apply Nat.eq_of_testBit_eq
    intro i
    rw [← Nat.shiftRight_eq_div_pow, Nat.testBit_shiftRight, Nat.testBit_or]
    have h1 : (2 ^ n * c).testBit (n + i) = c.testBit i := by
      rw [mul_comm, ← Nat.shiftLeft_eq, Nat.testBit_shiftLeft]
      simp
    rw [h1, htb (n + i) (Nat.le_add_right _ _), Bool.or_false]
  calc 2 ^ n * c ||| b
      = 2 ^ n * ((2 ^ n * c ||| b) / 2 ^ n) + (2 ^ n * c ||| b) % 2 ^ n :=
        (Nat.div_add_mod _ _).symm
    _ = 2 ^ n * c + b := by rw [hmod, hdiv]

theorem and_eq_of_mod_eq {n x y : Nat} (c : Nat) (hc : c < 2 ^ n)
    (h : x % 2 ^ n = y % 2 ^ n) : x &&& c = y &&& c := by
  apply Nat.eq_of_testBit_eq
  intro i
  rw [Nat.testBit_and, Nat.testBit_and]
  rcases lt_or_ge i n with hi | hi
  · have hx : x.testBit i = (x % 2 ^ n).testBit i := by
      rw [Nat.testBit_mod_two_pow]; simp [hi]
    have hy : y.testBit i = (y % 2 ^ n).testBit i := by
      rw [Nat.testBit_mod_two_pow]; simp [hi]
    rw [hx, hy, h]
  · have : c.testBit i = false :=
      Nat.testBit_eq_false_of_lt (lt_of_lt_of_le hc (Nat.pow_le_pow_right (by norm_num) hi))
    simp [this]

/-! ## Index arithmetic -/

theorem vaddr_to_index_lt (va l : Nat) : vaddr_to_index va l < 512 := by
  have h : (RISCV_MMU_PT_ENTRIES - 1 : Nat) = 511 := by norm_num [RISCV_MMU_PT_ENTRIES]
  calc vaddr_to_index va l ≤ 511 := by rw [vaddr_to_index, h]; exact Nat.and_le_right
    _ < 512 := by norm_num

theorem vaddr_to_index_eq (va l : Nat) (hl : l ≤ 2) :
    vaddr_to_index va l = va / 2 ^ (12 + 9 * l) % 512 := by
  have h511 : (RISCV_MMU_PT_ENTRIES - 1 : Nat) = 2 ^ 9 - 1 := by norm_num [RISCV_MMU_PT_ENTRIES]
  have hmask : RISCV_MMU_CANONICAL_MASK = 2 ^ 39 - 1 := rfl
  rw [vaddr_to_index, h511, hmask, Nat.and_pow_two_sub_one_eq_mod,
    Nat.and_pow_two_sub_one_eq_mod, Nat.shiftRight_eq_div_pow, Nat.shiftRight_eq_div_pow,
    Nat.div_div_eq_div_mul, ← pow_add]
  have hk : PAGE_SIZE_SHIFT + l * RISCV_MMU_PT_SHIFT = 12 + 9 * l := by
    simp [PAGE_SIZE_SHIFT, RISCV_MMU_PT_SHIFT]; ring
  rw [hk]
  have hsplit : (39 : Nat) = (12 + 9 * l) + (27 - 9 * l) := by omega
  rw [hsplit, pow_add, Nat.mod_mul_right_div_self]
  have hdvd : (2 : Nat) ^ 9 ∣ 2 ^ (27 - 9 * l) := pow_dvd_pow 2 (by omega)
  rw [Nat.mod_mod_of_dvd _ hdvd]
  norm_num

theorem vaddr_to_index_digit (va l : Nat) (hl : l ≤ 2) :
    vaddr_to_index va l = va / 4096 / 512 ^ l % 512 := by
  rw [vaddr_to_index_eq va l hl, Nat.div_div_eq_div_mul]
  congr 2
  rw [pow_add, pow_mul]
  norm_num

theorem canPage_eq_iff {w v : Nat} :
    canPage w = canPage v ↔ ∀ l, l ≤ 2 → vaddr_to_index w l = vaddr_to_index v l := by
  have h0w := vaddr_to_index_digit w 0 (by norm_num)
  have h1w := vaddr_to_index_digit w 1 (by norm_num)
  have h2w := vaddr_to_index_digit w 2 (by norm_num)
  have h0v := vaddr_to_index_digit v 0 (by norm_num)
  have h1v := vaddr_to_index_digit v 1 (by norm_num)
  have h2v := vaddr_to_index_digit v 2 (by norm_num)
  norm_num at h0w h1w h2w h0v h1v h2v
  constructor
  · intro h l hl
    interval_cases l <;> simp only [h0w, h1w, h2w, h0v, h1v, h2v] <;>
      [skip; skip; skip] <;> unfold canPage at h <;> omega
  · intro h
    have e0 := h 0 (by norm_num)
    have e1 := h 1 (by norm_num)
    have e2 := h 2 (by norm_num)
    rw [h0w, h0v] at e0
    rw [h1w, h1v] at e1
    rw [h2w, h2v] at e2
    unfold canPage
    omega

/-! ## PTE arithmetic -/

theorem RISCV_PTE_PPN_TO_PTE_eq (pa : Nat) : RISCV_PTE_PPN_TO_PTE pa = 1024 * (pa / 4096) := by
  rw [RISCV_PTE_PPN_TO_PTE, Nat.shiftRight_eq_div_pow, Nat.shiftLeft_eq]
  norm_num [PAGE_SIZE_SHIFT, RISCV_PTE_PPN_SHIFT]
  ring

theorem RISCV_PTE_PPN_eq (pte : Nat) : RISCV_PTE_PPN pte = pte / 1024 * 4096 := by
  rw [RISCV_PTE_PPN, Nat.shiftRight_eq_div_pow, Nat.shiftLeft_eq]
  norm_num [PAGE_SIZE_SHIFT, RISCV_PTE_PPN_SHIFT]

theorem pte_split {pa lo : Nat} (hlo : lo < 1024) :
    RISCV_PTE_PPN_TO_PTE pa ||| lo = 1024 * (pa / 4096) + lo := by
  rw [RISCV_PTE_PPN_TO_PTE_eq]
  exact or_eq_add (n := 10) ⟨pa / 4096, by norm_num⟩ (by norm_num; omega)

theorem ppn_roundtrip {pa : Nat} (hpa : 4096 ∣ pa) {lo : Nat} (hlo : lo < 1024) :
    RISCV_PTE_PPN (RISCV_PTE_PPN_TO_PTE pa ||| lo) = pa := by
  rw [pte_split hlo, RISCV_PTE_PPN_eq, Nat.mul_add_div (by norm_num),
    Nat.div_eq_of_lt hlo]
  omega

/-- The terminal PTE `map_cb` constructs (same expression as in `map_cb`). -/
def map_leaf_pte (aspace : arch_aspace) (flags paddr : Nat) : Nat :=
  RISCV_PTE_PPN_TO_PTE paddr ||| mmu_flags_to_pte flags |||
    RISCV_PTE_A ||| RISCV_PTE_D ||| RISCV_PTE_V |||
    (if aspace.flags &&& ARCH_ASPACE_FLAG_KERNEL ≠ 0 then RISCV_PTE_G else 0)

/-- The low (non-PPN) bits of a constructed terminal PTE; `g` is the global
bit contribution (`0` or `RISCV_PTE_G`). -/
def leaf_low (flags g : Nat) : Nat :=
  mmu_flags_to_pte flags ||| RISCV_PTE_A ||| RISCV_PTE_D ||| RISCV_PTE_V ||| g

theorem map_leaf_pte_or (a : arch_aspace) (flags paddr : Nat) :
    map_leaf_pte a flags paddr = RISCV_PTE_PPN_TO_PTE paddr |||
      leaf_low flags (if a.flags &&& ARCH_ASPACE_FLAG_KERNEL ≠ 0 then RISCV_PTE_G else 0) := by
  simp [map_leaf_pte, leaf_low, Nat.or_assoc]

theorem leaf_low_facts : ∀ f, f < 29 → f &&& 28 = f → ∀ g, (g = 0 ∨ g = 32) →
    leaf_low f g < 1024 ∧ leaf_low f g &&& RISCV_PTE_V ≠ 0 ∧
      leaf_low f g &&& RISCV_PTE_PERM_MASK ≠ 0 ∧
      pte_flags_to_mmu_flags (leaf_low f g) = f := by
  intro f hf hmask g hg
  rcases hg with rfl | rfl <;> revert hmask <;> revert f hf <;> decide

theorem flags_lt_of_and_28 {flags : Nat} (hf : flags &&& 28 = flags) : flags < 29 := by
  have := @Nat.and_le_right flags 28
  omega

theorem gbit_cases (a : arch_aspace) :
    (if a.flags &&& ARCH_ASPACE_FLAG_KERNEL ≠ 0 then RISCV_PTE_G else 0) = 0 ∨
    (if a.flags &&& ARCH_ASPACE_FLAG_KERNEL ≠ 0 then RISCV_PTE_G else 0) = 32 := by
  split
  · right; rfl
  · left; rfl

theorem map_leaf_pte_split (a : arch_aspace) {flags : Nat} (paddr : Nat)
    (hf : flags &&& 28 = flags) :
    map_leaf_pte a flags paddr = 1024 * (paddr / 4096) +
      leaf_low flags (if a.flags &&& ARCH_ASPACE_FLAG_KERNEL ≠ 0 then RISCV_PTE_G else 0) := by
  have hlo := (leaf_low_facts flags (flags_lt_of_and_28 hf) hf _ (gbit_cases a)).1
  rw [map_leaf_pte_or, pte_split hlo]

theorem map_leaf_pte_valid (a : arch_aspace) {flags : Nat} (paddr : Nat)
    (hf : flags &&& 28 = flags) :
    map_leaf_pte a flags paddr &&& RISCV_PTE_V ≠ 0 ∧
      map_leaf_pte a flags paddr &&& RISCV_PTE_PERM_MASK ≠ 0 := by
  obtain ⟨hlt, hv, hp, _⟩ :=
    leaf_low_facts flags (flags_lt_of_and_28 hf) hf _ (gbit_cases a)
  rw [map_leaf_pte_split a paddr hf]
  set lo := leaf_low flags (if a.flags &&& ARCH_ASPACE_FLAG_KERNEL ≠ 0 then RISCV_PTE_G else 0)
    with hlodef
  constructor
  · rw [and_eq_of_mod_eq (n := 10) RISCV_PTE_V (by norm_num [RISCV_PTE_V])
      (x := 1024 * (paddr / 4096) + lo) (y := lo) (by omega)]
    exact hv
  · rw [and_eq_of_mod_eq (n := 10) RISCV_PTE_PERM_MASK
      (by decide)
      (x := 1024 * (paddr / 4096) + lo) (y := lo) (by omega)]
    exact hp

theorem map_leaf_pte_ppn (a : arch_aspace) {flags paddr : Nat}
    (hf : flags &&& 28 = flags) (hpa : 4096 ∣ paddr) :
    RISCV_PTE_PPN (map_leaf_pte a flags paddr) = paddr := by
  have hlo := (leaf_low_facts flags (flags_lt_of_and_28 hf) hf _ (gbit_cases a)).1
  rw [map_leaf_pte_or]
  exact ppn_roundtrip hpa hlo

theorem pte_flags_to_mmu_flags_congr {x y : Nat} (h : x % 32 = y % 32) :
    pte_flags_to_mmu_flags x = pte_flags_to_mmu_flags y := by
  unfold pte_flags_to_mmu_flags
  rw [and_eq_of_mod_eq (n := 5) (RISCV_PTE_R ||| RISCV_PTE_W)
      (by decide) h,
    and_eq_of_mod_eq (n := 5) RISCV_PTE_X (by norm_num [RISCV_PTE_X]) h,
    and_eq_of_mod_eq (n := 5) RISCV_PTE_U (by norm_num [RISCV_PTE_U]) h]

theorem map_leaf_pte_flags (a : arch_aspace) {flags : Nat} (paddr : Nat)
    (hf : flags &&& 28 = flags) :
    pte_flags_to_mmu_flags (map_leaf_pte a flags paddr) = flags := by
  obtain ⟨hlt, _, _, hrt⟩ :=
    leaf_low_facts flags (flags_lt_of_and_28 hf) hf _ (gbit_cases a)
  rw [map_leaf_pte_split a paddr hf]
  set lo := leaf_low flags (if a.flags &&& ARCH_ASPACE_FLAG_KERNEL ≠ 0 then RISCV_PTE_G else 0)
    with hlodef
  rw [pte_flags_to_mmu_flags_congr (y := lo) (by omega)]
  exact hrt

/-! Link PTEs installed by the walker (`RISCV_PTE_PPN_TO_PTE pa ||| RISCV_PTE_V`). -/

theorem link_pte_split (pa : Nat) :
    RISCV_PTE_PPN_TO_PTE pa ||| RISCV_PTE_V = 1024 * (pa / 4096) + 1 :=
  pte_split (by norm_num [RISCV_PTE_V])

theorem link_pte_is_link (pa : Nat) :
    (RISCV_PTE_PPN_TO_PTE pa ||| RISCV_PTE_V) &&& RISCV_PTE_V ≠ 0 ∧
      (RISCV_PTE_PPN_TO_PTE pa ||| RISCV_PTE_V) &&& RISCV_PTE_PERM_MASK = 0 := by
  rw [link_pte_split]
  constructor
  · rw [and_eq_of_mod_eq (n := 10) RISCV_PTE_V (by norm_num [RISCV_PTE_V])
      (x := 1024 * (pa / 4096) + 1) (y := 1) (by omega)]
    decide
  · rw [and_eq_of_mod_eq (n := 10) RISCV_PTE_PERM_MASK
      (by decide)
      (x := 1024 * (pa / 4096) + 1) (y := 1) (by omega)]
    decide

theorem link_pte_ppn {pa : Nat} (hpa : 4096 ∣ pa) :
    RISCV_PTE_PPN (RISCV_PTE_PPN_TO_PTE pa ||| RISCV_PTE_V) = pa :=
  ppn_roundtrip hpa (by norm_num [RISCV_PTE_V])

/-! ## Walker unfolding lemmas -/

/-- A level/table position is a link: valid with no permission bits. -/
def isLink (m : Mem) (tb i : Nat) : Prop :=
  m tb i &&& RISCV_PTE_V ≠ 0 ∧ m tb i &&& RISCV_PTE_PERM_MASK = 0

instance (m : Mem) (tb i : Nat) : Decidable (isLink m tb i) := by
  unfold isLink; infer_instance

theorem walk_loop_link {σ : Type} (cb : PageWalkCb σ) {l va : Nat} {s : MMUState} {tb : Nat}
    {err : Int} {cbs : σ} (h : isLink s.mem tb (vaddr_to_index va (l + 1))) :
    riscv_pt_walk_loop cb (l + 1) va s tb err cbs =
      riscv_pt_walk_loop cb l va s
        (RISCV_PTE_PPN (s.mem tb (vaddr_to_index va (l + 1)))) err cbs := by
  have hc : s.mem tb (vaddr_to_index va (l + 1)) &&& RISCV_PTE_V ≠ 0 ∧
      s.mem tb (vaddr_to_index va (l + 1)) &&& RISCV_PTE_PERM_MASK = 0 := h
  conv_lhs => rw [riscv_pt_walk_loop.eq_def]
  simp only [if_pos hc]

theorem walk_loop_link_zero {σ : Type} (cb : PageWalkCb σ) {va : Nat} {s : MMUState} {tb : Nat}
    {err : Int} {cbs : σ} (h : isLink s.mem tb (vaddr_to_index va 0)) :
    riscv_pt_walk_loop cb 0 va s tb err cbs = .panic s cbs := by
  have hc : s.mem tb (vaddr_to_index va 0) &&& RISCV_PTE_V ≠ 0 ∧
      s.mem tb (vaddr_to_index va 0) &&& RISCV_PTE_PERM_MASK = 0 := h
  conv_lhs => rw [riscv_pt_walk_loop.eq_def]
  simp only [if_pos hc]

theorem walk_loop_cb_none {σ : Type} (cb : PageWalkCb σ) {lvl va : Nat} {s : MMUState}
    {tb : Nat} {err : Int} {cbs : σ} (h : ¬ isLink s.mem tb (vaddr_to_index va lvl))
    (hcb : cb lvl (vaddr_to_index va lvl) (s.mem tb (vaddr_to_index va lvl)) va err cbs = none) :
    riscv_pt_walk_loop cb lvl va s tb err cbs = .panic s cbs := by
  have hc : ¬ (s.mem tb (vaddr_to_index va lvl) &&& RISCV_PTE_V ≠ 0 ∧
      s.mem tb (vaddr_to_index va lvl) &&& RISCV_PTE_PERM_MASK = 0) := h
  conv_lhs => rw [riscv_pt_walk_loop.eq_def]
  simp only [if_neg hc, hcb]

theorem walk_loop_cb_halt {σ : Type} (cb : PageWalkCb σ) {lvl va : Nat} {s : MMUState}
    {tb : Nat} {err : Int} {cbs : σ} {p2 v2 : Nat} {e2 : Int} {c2 : σ}
    (h : ¬ isLink s.mem tb (vaddr_to_index va lvl))
    (hcb : cb lvl (vaddr_to_index va lvl) (s.mem tb (vaddr_to_index va lvl)) va err cbs =
      some (.HALT, p2, v2, e2, c2)) :
    riscv_pt_walk_loop cb lvl va s tb err cbs = .halt e2 s c2 := by
  have hc : ¬ (s.mem tb (vaddr_to_index va lvl) &&& RISCV_PTE_V ≠ 0 ∧
      s.mem tb (vaddr_to_index va lvl) &&& RISCV_PTE_PERM_MASK = 0) := h
  conv_lhs => rw [riscv_pt_walk_loop.eq_def]
  simp only [if_neg hc, hcb]

theorem walk_loop_cb_restart {σ : Type} (cb : PageWalkCb σ) {lvl va : Nat} {s : MMUState}
    {tb : Nat} {err : Int} {cbs : σ} {p2 v2 : Nat} {e2 : Int} {c2 : σ}
    (h : ¬ isLink s.mem tb (vaddr_to_index va lvl))
    (hcb : cb lvl (vaddr_to_index va lvl) (s.mem tb (vaddr_to_index va lvl)) va err cbs =
      some (.RESTART, p2, v2, e2, c2)) :
    riscv_pt_walk_loop cb lvl va s tb err cbs = .restart v2 e2 s c2 := by
  have hc : ¬ (s.mem tb (vaddr_to_index va lvl) &&& RISCV_PTE_V ≠ 0 ∧
      s.mem tb (vaddr_to_index va lvl) &&& RISCV_PTE_PERM_MASK = 0) := h
  conv_lhs => rw [riscv_pt_walk_loop.eq_def]
  simp only [if_neg hc, hcb]

theorem walk_loop_cb_commit_restart {σ : Type} (cb : PageWalkCb σ) {lvl va : Nat}
    {s : MMUState} {tb : Nat} {err : Int} {cbs : σ} {p2 v2 : Nat} {e2 : Int} {c2 : σ}
    (h : ¬ isLink s.mem tb (vaddr_to_index va lvl))
    (hcb : cb lvl (vaddr_to_index va lvl) (s.mem tb (vaddr_to_index va lvl)) va err cbs =
      some (.COMMIT_AND_RESTART, p2, v2, e2, c2)) :
    riscv_pt_walk_loop cb lvl va s tb err cbs =
      .restart v2 e2 { s with mem := writeSlot s.mem tb (vaddr_to_index va lvl) p2 } c2 := by
  have hc : ¬ (s.mem tb (vaddr_to_index va lvl) &&& RISCV_PTE_V ≠ 0 ∧
      s.mem tb (vaddr_to_index va lvl) &&& RISCV_PTE_PERM_MASK = 0) := h
  conv_lhs => rw [riscv_pt_walk_loop.eq_def]
  simp only [if_neg hc, hcb]

theorem walk_loop_cb_commit_halt {σ : Type} (cb : PageWalkCb σ) {lvl va : Nat}
    {s : MMUState} {tb : Nat} {err : Int} {cbs : σ} {p2 v2 : Nat} {e2 : Int} {c2 : σ}
    (h : ¬ isLink s.mem tb (vaddr_to_index va lvl))
    (hcb : cb lvl (vaddr_to_index va lvl) (s.mem tb (vaddr_to_index va lvl)) va err cbs =
      some (.COMMIT_AND_HALT, p2, v2, e2, c2)) :
    riscv_pt_walk_loop cb lvl va s tb err cbs =
      .halt e2 { s with mem := writeSlot s.mem tb (vaddr_to_index va lvl) p2 } c2 := by
  have hc : ¬ (s.mem tb (vaddr_to_index va lvl) &&& RISCV_PTE_V ≠ 0 ∧
      s.mem tb (vaddr_to_index va lvl) &&& RISCV_PTE_PERM_MASK = 0) := h
  conv_lhs => rw [riscv_pt_walk_loop.eq_def]
  simp only [if_neg hc, hcb]

theorem walk_loop_cb_alloc_nomem {σ : Type} (cb : PageWalkCb σ) {lvl va : Nat}
    {s : MMUState} {tb : Nat} {err : Int} {cbs : σ} {p2 v2 : Nat} {e2 : Int} {c2 : σ}
    (h : ¬ isLink s.mem tb (vaddr_to_index va lvl))
    (hcb : cb lvl (vaddr_to_index va lvl) (s.mem tb (vaddr_to_index va lvl)) va err cbs =
      some (.ALLOC_PT, p2, v2, e2, c2))
    (hfree : s.free = []) :
    riscv_pt_walk_loop cb lvl va s tb err cbs = .halt ERR_NO_MEMORY s c2 := by
  have hc : ¬ (s.mem tb (vaddr_to_index va lvl) &&& RISCV_PTE_V ≠ 0 ∧
      s.mem tb (vaddr_to_index va lvl) &&& RISCV_PTE_PERM_MASK = 0) := h
  conv_lhs => rw [riscv_pt_walk_loop.eq_def]
  simp only [if_neg hc, hcb, alloc_ptable, hfree]

theorem walk_loop_cb_alloc_step {σ : Type} (cb : PageWalkCb σ) {l va : Nat}
    {s : MMUState} {tb : Nat} {err : Int} {cbs : σ} {p2 v2 : Nat} {e2 : Int} {c2 : σ}
    {pa : Nat} {rest : List Nat}
    (h : ¬ isLink s.mem tb (vaddr_to_index va (l + 1)))
    (hcb : cb (l + 1) (vaddr_to_index va (l + 1)) (s.mem tb (vaddr_to_index va (l + 1)))
      va err cbs = some (.ALLOC_PT, p2, v2, e2, c2))
    (hfree : s.free = pa :: rest) :
    riscv_pt_walk_loop cb (l + 1) va s tb err cbs =
      riscv_pt_walk_loop cb l v2
        { s with
          mem := writeSlot (zeroTable s.mem pa) tb (vaddr_to_index va (l + 1))
            (RISCV_PTE_PPN_TO_PTE pa ||| RISCV_PTE_V),
          free := rest } pa e2 c2 := by
  have hc : ¬ (s.mem tb (vaddr_to_index va (l + 1)) &&& RISCV_PTE_V ≠ 0 ∧
      s.mem tb (vaddr_to_index va (l + 1)) &&& RISCV_PTE_PERM_MASK = 0) := h
  conv_lhs => rw [riscv_pt_walk_loop.eq_def]
  simp only [if_neg hc, hcb, alloc_ptable, hfree]

/-! ## `findStop` basics -/

theorem findStop_stop {m : Mem} : ∀ {lvl : Nat} (tb : Nat) {va l t i : Nat},
    findStop m lvl tb va = some (l, t, i) →
    i = vaddr_to_index va l ∧ l ≤ lvl ∧ ¬ isLink m t i
  | 0, tb, va, l, t, i, h => by
    rw [findStop] at h
    split at h
    · exact absurd h (by simp)
    · rename_i hc
      obtain ⟨rfl, rfl, rfl⟩ : 0 = l ∧ tb = t ∧ vaddr_to_index va 0 = i := by
        simpa using h
      exact ⟨rfl, Nat.le_refl 0, fun hl => hc ⟨hl.1, hl.2⟩⟩
  | lv + 1, tb, va, l, t, i, h => by
    rw [findStop] at h
    split at h
    · obtain ⟨h1, h2, h3⟩ := findStop_stop _ h
      exact ⟨h1, Nat.le_succ_of_le h2, h3⟩
    · rename_i hc
      obtain ⟨rfl, rfl, rfl⟩ : lv + 1 = l ∧ tb = t ∧ vaddr_to_index va (lv + 1) = i := by
        simpa using h
      exact ⟨rfl, Nat.le_refl _, fun hl => hc ⟨hl.1, hl.2⟩⟩

theorem walk_loop_factor {σ : Type} (cb : PageWalkCb σ) {s : MMUState} {va : Nat} :
    ∀ {lvl : Nat} (tb : Nat) {l t i : Nat} (err : Int) (cbs : σ),
    findStop s.mem lvl tb va = some (l, t, i) →
    riscv_pt_walk_loop cb lvl va s tb err cbs = riscv_pt_walk_loop cb l va s t err cbs
  | 0, tb, l, t, i, err, cbs, h => by
    rw [findStop] at h
    split at h
    · exact absurd h (by simp)
    · obtain ⟨rfl, rfl, rfl⟩ : 0 = l ∧ tb = t ∧ vaddr_to_index va 0 = i := by simpa using h
      rfl
  | lv + 1, tb, l, t, i, err, cbs, h => by
    rw [findStop] at h
    split at h
    · rename_i hc
      rw [walk_loop_link cb ⟨hc.1, hc.2⟩]
      exact walk_loop_factor cb _ err cbs h
    · obtain ⟨rfl, rfl, rfl⟩ : lv + 1 = l ∧ tb = t ∧ vaddr_to_index va (lv + 1) = i := by
        simpa using h
      rfl

theorem walk_loop_of_findStop_none {σ : Type} (cb : PageWalkCb σ) {s : MMUState} {va : Nat} :
    ∀ {lvl : Nat} (tb : Nat) (err : Int) (cbs : σ),
    findStop s.mem lvl tb va = none →
    riscv_pt_walk_loop cb lvl va s tb err cbs = .panic s cbs
  | 0, tb, err, cbs, h => by
    rw [findStop] at h
    split at h
    · rename_i hc
      exact walk_loop_link_zero cb ⟨hc.1, hc.2⟩
    · exact absurd h (by simp)
  | lv + 1, tb, err, cbs, h => by
    rw [findStop] at h
    split at h
    · rename_i hc
      rw [walk_loop_link cb ⟨hc.1, hc.2⟩]
      exact walk_loop_of_findStop_none cb _ err cbs h
    · exact absurd h (by simp)

/-! ## Query characterization -/

theorem LEVELS_sub_one : RISCV_MMU_PT_LEVELS - 1 = 2 := rfl

/-- What `arch_mmu_query` returns is a function of the `view` the structure
holds for the address. -/
theorem arch_mmu_query_char (a : arch_aspace) (va : Nat) (s : MMUState)
    (hin : ¬ (va < a.base ∨ aspace_limit a < va)) :
    arch_mmu_query a va s =
      match view s.mem 2 a.pt_phys va with
      | .bad => .panic
      | .hole => .done ERR_NOT_FOUND none none
      | .leaf l pte =>
        .done NO_ERROR (some (RISCV_PTE_PPN pte ||| (va &&& page_mask_per_level l)))
          (some (pte_flags_to_mmu_flags pte)) := by
  rw [arch_mmu_query, if_neg hin, riscv_pt_walk, LEVELS_sub_one]
  rw [view]
  rcases hfs : findStop s.mem 2 a.pt_phys va with _ | ⟨l, t, i⟩
  · rw [walk_loop_of_findStop_none query_cb _ _ _ hfs]
  · obtain ⟨hi, hl, hstop⟩ := findStop_stop _ hfs
    subst hi
    rw [walk_loop_factor query_cb _ _ _ hfs]
    by_cases hv : s.mem t (vaddr_to_index va l) &&& RISCV_PTE_V ≠ 0
    · have hperm : ¬ s.mem t (vaddr_to_index va l) &&& RISCV_PTE_PERM_MASK = 0 := by
        intro hp
        exact hstop ⟨hv, hp⟩
      have hcb : query_cb l (vaddr_to_index va l) (s.mem t (vaddr_to_index va l)) va
          NO_ERROR (none, none) = some (.HALT, s.mem t (vaddr_to_index va l), va, NO_ERROR,
            (some (RISCV_PTE_PPN (s.mem t (vaddr_to_index va l)) |||
              (va &&& page_mask_per_level l)),
             some (pte_flags_to_mmu_flags (s.mem t (vaddr_to_index va l))))) := by
        rw [query_cb]
        simp [hv, hperm]
      rw [walk_loop_cb_halt query_cb hstop hcb]
      simp [hv]
    · push_neg at hv
      have hcb : query_cb l (vaddr_to_index va l) (s.mem t (vaddr_to_index va l)) va
          NO_ERROR (none, none) = some (.HALT, s.mem t (vaddr_to_index va l), va,
            ERR_NOT_FOUND, (none, none)) := by
        rw [query_cb]
        simp [hv]
      rw [walk_loop_cb_halt query_cb hstop hcb]
      simp [hv]

/-! ## Reachable-table infrastructure -/

theorem flatMap_congr {α β : Type} {xs : List α} {f g : α → List β}
    (h : ∀ x ∈ xs, f x = g x) : xs.flatMap f = xs.flatMap g := by
  induction xs with
  | nil => rfl
  | cons x xs ih =>
    rw [List.flatMap_cons, List.flatMap_cons, h x (by simp),
      ih (fun y hy => h y (by simp [hy]))]

theorem sublist_flatMap {α β : Type} {xs : List α} {f : α → List β} {a : α} (ha : a ∈ xs) :
    List.Sublist (f a) (xs.flatMap f) := by
  induction xs with
  | nil => simp at ha
  | cons x xs ih =>
    rw [List.flatMap_cons]
    rcases List.mem_cons.mp ha with rfl | hmem
    · exact List.sublist_append_left _ _
    · exact (ih hmem).trans (List.sublist_append_right _ _)

theorem nodup_flatMap_disjoint {α β : Type} {xs : List α} {f : α → List β}
    (hxs : xs.Nodup) (h : (xs.flatMap f).Nodup) {a b : α} (ha : a ∈ xs) (hb : b ∈ xs)
    (hab : a ≠ b) {y : β} (hya : y ∈ f a) : y ∉ f b := by
  induction xs with
  | nil => simp at ha
  | cons x xs ih =>
    rw [List.flatMap_cons] at h
    obtain ⟨hnd1, hnd2, hdisj⟩ := List.nodup_append.mp h
    rcases List.mem_cons.mp ha with rfl | ha2
    · rcases List.mem_cons.mp hb with rfl | hb2
      · exact absurd rfl hab
      · intro hyb
        exact hdisj hya (List.mem_flatMap.mpr ⟨b, hb2, hyb⟩)
    · rcases List.mem_cons.mp hb with rfl | hb2
      · intro hyb
        exact hdisj hyb (List.mem_flatMap.mpr ⟨a, ha2, hya⟩)
      · exact ih hxs.of_cons hnd2 ha2 hb2

theorem tablesBelow_zero (m : Mem) (t : Nat) : tablesBelow m 0 t = [t] := rfl

theorem tablesBelow_succ (m : Mem) (l t : Nat) :
    tablesBelow m (l + 1) t = t :: (List.range RISCV_MMU_PT_ENTRIES).flatMap (fun j =>
      if m t j &&& RISCV_PTE_V ≠ 0 ∧ m t j &&& RISCV_PTE_PERM_MASK = 0 then
        tablesBelow m l (RISCV_PTE_PPN (m t j))
      else []) := rfl

theorem mem_tablesBelow_self (m : Mem) (l t : Nat) : t ∈ tablesBelow m l t := by
  cases l with
  | zero => simp [tablesBelow_zero]
  | succ l => simp [tablesBelow_succ]

theorem sublist_flatMap_of_eq {α β : Type} {xs : List α} {f : α → List β} {a : α}
    {ys : List β} (ha : a ∈ xs) (h : f a = ys) : List.Sublist ys (xs.flatMap f) :=
  h ▸ sublist_flatMap ha

theorem mem_range_entries {j : Nat} (hj : j < 512) : j ∈ List.range RISCV_MMU_PT_ENTRIES := by
  rw [List.mem_range]
  exact lt_of_lt_of_eq hj rfl

theorem tablesBelow_child_flat_sublist {m : Mem} {t j : Nat} (l : Nat) (hj : j < 512)
    (hlink : isLink m t j) :
    List.Sublist (tablesBelow m l (RISCV_PTE_PPN (m t j)))
      ((List.range RISCV_MMU_PT_ENTRIES).flatMap (fun j2 =>
        if m t j2 &&& RISCV_PTE_V ≠ 0 ∧ m t j2 &&& RISCV_PTE_PERM_MASK = 0 then
          tablesBelow m l (RISCV_PTE_PPN (m t j2))
        else [])) :=
  sublist_flatMap_of_eq (mem_range_entries hj) (if_pos ⟨hlink.1, hlink.2⟩)

theorem tablesBelow_child_sublist {m : Mem} {t j : Nat} (l : Nat) (hj : j < 512)
    (hlink : isLink m t j) :
    List.Sublist (tablesBelow m l (RISCV_PTE_PPN (m t j))) (tablesBelow m (l + 1) t) := by
  rw [tablesBelow_succ]
  exact List.Sublist.trans (tablesBelow_child_flat_sublist l hj hlink)
    (List.sublist_cons_self _ _)

theorem nodup_tablesBelow_child {m : Mem} {t j : Nat} {l : Nat}
    (h : (tablesBelow m (l + 1) t).Nodup) (hj : j < 512) (hlink : isLink m t j) :
    (tablesBelow m l (RISCV_PTE_PPN (m t j))).Nodup :=
  (tablesBelow_child_sublist l hj hlink).nodup h

theorem head_notin_child {m : Mem} {t j : Nat} {l : Nat}
    (h : (tablesBelow m (l + 1) t).Nodup) (hj : j < 512) (hlink : isLink m t j) :
    t ∉ tablesBelow m l (RISCV_PTE_PPN (m t j)) := by
  rw [tablesBelow_succ] at h
  intro hmem
  exact (List.nodup_cons.mp h).1 ((tablesBelow_child_flat_sublist l hj hlink).subset hmem)

theorem sibling_disjoint {m : Mem} {t : Nat} {l : Nat}
    (h : (tablesBelow m (l + 1) t).Nodup) {j j2 : Nat} (hj : j < 512) (hj2 : j2 < 512)
    (hne : j ≠ j2) (hlink : isLink m t j) (hlink2 : isLink m t j2) {y : Nat}
    (hy : y ∈ tablesBelow m l (RISCV_PTE_PPN (m t j))) :
    y ∉ tablesBelow m l (RISCV_PTE_PPN (m t j2)) := by
  rw [tablesBelow_succ] at h
  have hflat := (List.nodup_cons.mp h).2
  intro hy2
  have h1 : y ∈ (if m t j &&& RISCV_PTE_V ≠ 0 ∧ m t j &&& RISCV_PTE_PERM_MASK = 0 then
      tablesBelow m l (RISCV_PTE_PPN (m t j)) else []) := by
    rwa [if_pos ⟨hlink.1, hlink.2⟩]
  have h2 : y ∈ (if m t j2 &&& RISCV_PTE_V ≠ 0 ∧ m t j2 &&& RISCV_PTE_PERM_MASK = 0 then
      tablesBelow m l (RISCV_PTE_PPN (m t j2)) else []) := by
    rwa [if_pos ⟨hlink2.1, hlink2.2⟩]
  exact nodup_flatMap_disjoint (List.nodup_range _) hflat (mem_range_entries hj)
    (mem_range_entries hj2) hne h1 h2

theorem findStop_mem_tablesBelow {m : Mem} {va : Nat} : ∀ {lvl : Nat} (tb : Nat)
    {l t i : Nat}, findStop m lvl tb va = some (l, t, i) → t ∈ tablesBelow m lvl tb
  | 0, tb, l, t, i, h => by
    rw [findStop] at h
    split at h
    · exact absurd h (by simp)
    · obtain ⟨rfl, rfl, rfl⟩ : 0 = l ∧ tb = t ∧ vaddr_to_index va 0 = i := by simpa using h
      exact mem_tablesBelow_self m 0 _
  | lv + 1, tb, l, t, i, h => by
    rw [findStop] at h
    split at h
    · rename_i hc
      exact (tablesBelow_child_sublist lv (vaddr_to_index_lt va (lv + 1)) ⟨hc.1, hc.2⟩).subset
        (findStop_mem_tablesBelow _ h)
    · obtain ⟨rfl, rfl, rfl⟩ : lv + 1 = l ∧ tb = t ∧ vaddr_to_index va (lv + 1) = i := by
        simpa using h
      exact mem_tablesBelow_self m _ _

/-! ## Frame lemmas: writes outside a subtree do not change it -/

theorem tablesBelow_congr {m m2 : Mem} : ∀ {lvl : Nat} (tb : Nat),
    (∀ u ∈ tablesBelow m lvl tb, ∀ j, m2 u j = m u j) →
    tablesBelow m2 lvl tb = tablesBelow m lvl tb
  | 0, tb, _ => rfl
  | lv + 1, tb, h => by
    rw [tablesBelow_succ, tablesBelow_succ]
    refine congrArg (List.cons tb) (flatMap_congr ?_)
    intro j hj
    have hslot : m2 tb j = m tb j := h tb (mem_tablesBelow_self m _ tb) j
    rw [hslot]
    by_cases hlink : m tb j &&& RISCV_PTE_V ≠ 0 ∧ m tb j &&& RISCV_PTE_PERM_MASK = 0
    · rw [if_pos hlink, if_pos hlink]
      have hj512 : j < 512 := by
        have := List.mem_range.mp hj
        norm_num [RISCV_MMU_PT_ENTRIES] at this
        omega
      exact tablesBelow_congr _ (fun u hu j2 =>
        h u ((tablesBelow_child_sublist lv hj512 ⟨hlink.1, hlink.2⟩).subset hu) j2)
    · rw [if_neg hlink, if_neg hlink]

theorem findStop_congr {m m2 : Mem} {va : Nat} : ∀ {lvl : Nat} (tb : Nat),
    (∀ u ∈ tablesBelow m lvl tb, ∀ j, m2 u j = m u j) →
    findStop m2 lvl tb va = findStop m lvl tb va
  | 0, tb, h => by
    rw [findStop, findStop, h tb (mem_tablesBelow_self m 0 tb)]
  | lv + 1, tb, h => by
    rw [findStop, findStop, h tb (mem_tablesBelow_self m _ tb)]
    by_cases hlink : m tb (vaddr_to_index va (lv + 1)) &&& RISCV_PTE_V ≠ 0 ∧
        m tb (vaddr_to_index va (lv + 1)) &&& RISCV_PTE_PERM_MASK = 0
    · rw [if_pos hlink, if_pos hlink]
      exact findStop_congr _ (fun u hu j2 =>
        h u ((tablesBelow_child_sublist lv (vaddr_to_index_lt va (lv + 1))
          ⟨hlink.1, hlink.2⟩).subset hu) j2)
    · rw [if_neg hlink, if_neg hlink]

theorem view_congr {m m2 : Mem} {va : Nat} {lvl : Nat} (tb : Nat)
    (h : ∀ u ∈ tablesBelow m lvl tb, ∀ j, m2 u j = m u j) :
    view m2 lvl tb va = view m lvl tb va := by
  rw [view, view, findStop_congr tb h]
  rcases hfs : findStop m lvl tb va with _ | ⟨l, t, i⟩
  · rfl
  · dsimp only
    rw [h t (findStop_mem_tablesBelow tb hfs) i]

/-! ## The memory effect of mapping one page

From an invalid stop at level `l` in table `t`, the map visitor drives the
walker to allocate (zero) one chain table per missing level from the free list
`ps`, link each into its parent at the address's slot, and finally write `leaf`
into the level-0 slot.  `ps` running out models allocation failure: the links
written so far stay committed and the leaf is never placed. -/

def chainMem (m : Mem) (va : Nat) : Nat → Nat → List Nat → Nat → Mem
  | 0, t, _, leaf => writeSlot m t (vaddr_to_index va 0) leaf
  | _ + 1, _, [], _ => m
  | l + 1, t, p :: ps, leaf =>
    chainMem (writeSlot (zeroTable m p) t (vaddr_to_index va (l + 1))
      (RISCV_PTE_PPN_TO_PTE p ||| RISCV_PTE_V)) va l p ps leaf

theorem chainMem_take (m : Mem) (va : Nat) : ∀ (l : Nat) (t : Nat) (ps : List Nat) (leaf : Nat),
    chainMem m va l t (ps.take l) leaf = chainMem m va l t ps leaf
  | 0, t, ps, leaf => rfl
  | l + 1, t, [], leaf => rfl
  | l + 1, t, p :: ps, leaf => by
    rw [List.take_succ_cons]
    rw [chainMem, chainMem]
    exact chainMem_take _ va l p ps leaf

/-- Slots of tables outside the chain (not the stop table, not a chain page)
are untouched. -/
theorem chainMem_untouched {va : Nat} : ∀ {l : Nat} {m : Mem} {t : Nat} {ps : List Nat}
    {leaf : Nat} {u j : Nat}, u ≠ t → u ∉ ps → chainMem m va l t ps leaf u j = m u j
  | 0, m, t, ps, leaf, u, j, hut, _ => by
    rw [chainMem, writeSlot]
    simp [hut]
  | l + 1, m, t, [], leaf, u, j, hut, _ => by rw [chainMem]
  | l + 1, m, t, p :: ps, leaf, u, j, hut, hups => by
    rw [chainMem]
    have hup : u ≠ p := fun h => hups (h ▸ List.mem_cons_self p ps)
    have hups2 : u ∉ ps := fun h => hups (List.mem_cons_of_mem p h)
    rw [chainMem_untouched hup hups2, writeSlot, zeroTable]
    simp [hut, hup]

/-- Slots of the stop table other than the written one are untouched. -/
theorem chainMem_parent_other {va : Nat} : ∀ {l : Nat} {m : Mem} {t : Nat} {ps : List Nat}
    {leaf : Nat} {j : Nat}, j ≠ vaddr_to_index va l → t ∉ ps →
    chainMem m va l t ps leaf t j = m t j
  | 0, m, t, ps, leaf, j, hj, _ => by
    rw [chainMem, writeSlot]
    simp [hj]
  | l + 1, m, t, [], leaf, j, hj, _ => by rw [chainMem]
  | l + 1, m, t, p :: ps, leaf, j, hj, htps => by
    rw [chainMem]
    have htp : t ≠ p := fun h => htps (h ▸ List.mem_cons_self p ps)
    have htps2 : t ∉ ps := fun h => htps (List.mem_cons_of_mem p h)
    rw [chainMem_untouched htp htps2, writeSlot, zeroTable]
    simp [hj, htp]

/-- The stop slot itself: the leaf at level 0, a link to the first chain page
otherwise (when the free list is nonempty). -/
theorem chainMem_parent_slot_zero {va : Nat} {m : Mem} {t : Nat} {ps : List Nat} {leaf : Nat} :
    chainMem m va 0 t ps leaf t (vaddr_to_index va 0) = leaf := by
  rw [chainMem, writeSlot]
  simp

theorem chainMem_parent_slot_link {va : Nat} {l : Nat} {m : Mem} {t : Nat} {p : Nat}
    {ps : List Nat} {leaf : Nat} (htps : t ∉ p :: ps) :
    chainMem m va (l + 1) t (p :: ps) leaf t (vaddr_to_index va (l + 1)) =
      (RISCV_PTE_PPN_TO_PTE p ||| RISCV_PTE_V) := by
  rw [chainMem]
  have htp : t ≠ p := fun h => htps (h ▸ List.mem_cons_self p ps)
  have htps2 : t ∉ ps := fun h => htps (List.mem_cons_of_mem p h)
  rw [chainMem_untouched htp htps2, writeSlot]
  simp

theorem chainMem_parent_slot_nil {va : Nat} {l : Nat} {m : Mem} {t : Nat} {leaf : Nat}
    (j : Nat) : chainMem m va (l + 1) t [] leaf t j = m t j := by
  rw [chainMem]

/-- A link-entry step of `findStop` and `view`. -/
theorem view_link_step {m : Mem} {l tb va : Nat}
    (h : isLink m tb (vaddr_to_index va (l + 1))) :
    view m (l + 1) tb va = view m l (RISCV_PTE_PPN (m tb (vaddr_to_index va (l + 1)))) va := by
  rw [view, view, findStop, if_pos (show _ ∧ _ from ⟨h.1, h.2⟩)]

theorem view_stop_step {m : Mem} {l tb va : Nat}
    (h : ¬ isLink m tb (vaddr_to_index va l)) :
    view m l tb va = if m tb (vaddr_to_index va l) &&& RISCV_PTE_V ≠ 0 then
      .leaf l (m tb (vaddr_to_index va l)) else .hole := by
  have hc : ¬ (m tb (vaddr_to_index va l) &&& RISCV_PTE_V ≠ 0 ∧
      m tb (vaddr_to_index va l) &&& RISCV_PTE_PERM_MASK = 0) := h
  cases l with
  | zero => rw [view, findStop, if_neg hc]
  | succ l => rw [view, findStop, if_neg hc]

/-- Successful chain descent: the mapped address now sees `leaf` at level 0. -/
theorem chain_view_leaf {va : Nat} {leaf : Nat} (hlV : leaf &&& RISCV_PTE_V ≠ 0)
    (hlP : leaf &&& RISCV_PTE_PERM_MASK ≠ 0) :
    ∀ {l : Nat} {m : Mem} {t : Nat} {ps : List Nat},
    l ≤ ps.length → t ∉ ps → ps.Nodup → (∀ p ∈ ps, 4096 ∣ p) →
    view (chainMem m va l t ps leaf) l t va = .leaf 0 leaf
  | 0, m, t, ps, _, _, _, _ => by
    have hslot : chainMem m va 0 t ps leaf t (vaddr_to_index va 0) = leaf :=
      chainMem_parent_slot_zero
    have hstop : ¬ isLink (chainMem m va 0 t ps leaf) t (vaddr_to_index va 0) := by
      rw [isLink, hslot]
      intro hc
      exact hlP hc.2
    rw [view_stop_step hstop, hslot, if_pos hlV]
  | l + 1, m, t, [], hlen, _, _, _ => by simp at hlen
  | l + 1, m, t, p :: ps, hlen, htps, hnodup, halign => by
    have hslot : chainMem m va (l + 1) t (p :: ps) leaf t (vaddr_to_index va (l + 1)) =
        RISCV_PTE_PPN_TO_PTE p ||| RISCV_PTE_V := chainMem_parent_slot_link htps
    have hlink : isLink (chainMem m va (l + 1) t (p :: ps) leaf) t
        (vaddr_to_index va (l + 1)) := by
      rw [isLink, hslot]
      exact link_pte_is_link p
    rw [view_link_step hlink, hslot, link_pte_ppn (halign p (List.mem_cons_self p ps))]
    rw [chainMem]
    exact chain_view_leaf hlV hlP (by simpa using hlen) (List.nodup_cons.mp hnodup).1
      (List.nodup_cons.mp hnodup).2 (fun q hq => halign q (List.mem_cons_of_mem p hq))

/-- Allocation-starved chain descent: the stop stays a hole when the free
list runs out before level 0 is reached. -/
theorem chain_view_hole {va : Nat} {leaf : Nat} :
    ∀ {l : Nat} {m : Mem} {t : Nat} {ps : List Nat},
    ps.length < l → m t (vaddr_to_index va l) &&& RISCV_PTE_V = 0 →
    t ∉ ps → ps.Nodup → (∀ p ∈ ps, 4096 ∣ p) →
    view (chainMem m va l t ps leaf) l t va = .hole
  | 0, m, t, ps, hlen, _, _, _, _ => by simp at hlen
  | l + 1, m, t, [], _, hinv, _, _, _ => by
    have hm : chainMem m va (l + 1) t [] leaf = m := by rw [chainMem]
    rw [hm]
    have hstop : ¬ isLink m t (vaddr_to_index va (l + 1)) := fun hc => hc.1 hinv
    rw [view_stop_step hstop, if_neg (by simp [hinv])]
  | l + 1, m, t, p :: ps, hlen, hinv, htps, hnodup, halign => by
    have hslot : chainMem m va (l + 1) t (p :: ps) leaf t (vaddr_to_index va (l + 1)) =
        RISCV_PTE_PPN_TO_PTE p ||| RISCV_PTE_V := chainMem_parent_slot_link htps
    have hlink : isLink (chainMem m va (l + 1) t (p :: ps) leaf) t
        (vaddr_to_index va (l + 1)) := by
      rw [isLink, hslot]
      exact link_pte_is_link p
    rw [view_link_step hlink, hslot, link_pte_ppn (halign p (List.mem_cons_self p ps))]
    rw [chainMem]
    have htp : t ≠ p := fun h => htps (h ▸ List.mem_cons_self p ps)
    refine chain_view_hole (by simpa using hlen) ?_ (List.nodup_cons.mp hnodup).1
      (List.nodup_cons.mp hnodup).2 (fun q hq => halign q (List.mem_cons_of_mem p hq))
    have h1 : writeSlot (zeroTable m p) t (vaddr_to_index va (l + 1))
        (RISCV_PTE_PPN_TO_PTE p ||| RISCV_PTE_V) p (vaddr_to_index va l) = 0 := by
      rw [writeSlot, if_neg (fun hc => htp ((hc : p = t ∧ _).1.symm)), zeroTable, if_pos rfl]
    rw [h1]
    simp

/-- Chain descent for any address whose indices differ from the mapped
address's somewhere at or below the entry level: it ends in a hole (the chain
tables hold nothing except the mapped address's own path). -/
theorem chain_view_div {va w : Nat} {leaf : Nat} :
    ∀ {l : Nat} {m : Mem} {p : Nat} {ps : List Nat},
    (∀ j, m p j = 0) → p ∉ ps → ps.Nodup → (∀ q ∈ ps, 4096 ∣ q) →
    (∃ d, d ≤ l ∧ vaddr_to_index w d ≠ vaddr_to_index va d) →
    view (chainMem m va l p ps leaf) l p w = .hole
  | 0, m, p, ps, hzero, hpps, _, _, hd => by
    obtain ⟨d, hd0, hne⟩ := hd
    rw [Nat.le_zero.mp hd0] at hne
    have hslot : chainMem m va 0 p ps leaf p (vaddr_to_index w 0) = 0 := by
      rw [chainMem, writeSlot]
      simp [hne, hzero]
    have hstop : ¬ isLink (chainMem m va 0 p ps leaf) p (vaddr_to_index w 0) := by
      rw [isLink, hslot]
      simp
    rw [view_stop_step hstop, hslot, if_neg (by simp)]
  | l + 1, m, p, ps, hzero, hpps, hnodup, halign, hd => by
    by_cases hidx : vaddr_to_index w (l + 1) = vaddr_to_index va (l + 1)
    · cases ps with
      | nil =>
        have hm : chainMem m va (l + 1) p [] leaf = m := by rw [chainMem]
        have hstop : ¬ isLink (chainMem m va (l + 1) p [] leaf) p
            (vaddr_to_index w (l + 1)) := by
          rw [isLink, hm, hzero]
          simp
        rw [view_stop_step hstop, hm, hzero, if_neg (by simp)]
      | cons q qs =>
        have hslot : chainMem m va (l + 1) p (q :: qs) leaf p (vaddr_to_index w (l + 1)) =
            RISCV_PTE_PPN_TO_PTE q ||| RISCV_PTE_V := by
          rw [hidx]
          exact chainMem_parent_slot_link hpps
        have hlink : isLink (chainMem m va (l + 1) p (q :: qs) leaf) p
            (vaddr_to_index w (l + 1)) := by
          rw [isLink, hslot]
          exact link_pte_is_link q
        rw [view_link_step hlink, hslot, link_pte_ppn (halign q (List.mem_cons_self q qs))]
        rw [chainMem]
        have hpq : p ≠ q := fun h => hpps (h ▸ List.mem_cons_self q qs)
        refine chain_view_div ?_ (List.nodup_cons.mp hnodup).1 (List.nodup_cons.mp hnodup).2
          (fun r hr => halign r (List.mem_cons_of_mem q hr)) ?_
        · intro j
          rw [writeSlot, if_neg (fun hc => hpq ((hc : q = p ∧ _).1.symm)), zeroTable,
            if_pos rfl]
        · obtain ⟨d, hdle, hne⟩ := hd
          have hdne : d ≠ l + 1 := fun h => hne (h ▸ hidx)
          exact ⟨d, by omega, hne⟩
    · have hslot : chainMem m va (l + 1) p ps leaf p (vaddr_to_index w (l + 1)) = 0 := by
        rw [chainMem_parent_other hidx hpps, hzero]
      have hstop : ¬ isLink (chainMem m va (l + 1) p ps leaf) p
          (vaddr_to_index w (l + 1)) := by
        rw [isLink, hslot]
        simp
      rw [view_stop_step hstop, hslot, if_neg (by simp)]

/-! ## Effect of one mapped page, seen from the walk root -/

/-- After a successful chain install at the stop of `va`, the walk from any
ancestor of the stop sees the new leaf. -/
theorem chain_view_leaf_from_root {va : Nat} {m : Mem} {leaf : Nat} {ps : List Nat}
    (hlV : leaf &&& RISCV_PTE_V ≠ 0) (hlP : leaf &&& RISCV_PTE_PERM_MASK ≠ 0)
    (hpsnd : ps.Nodup) (halign : ∀ p ∈ ps, 4096 ∣ p) :
    ∀ {lvl : Nat} (tb : Nat) {l t i : Nat},
    findStop m lvl tb va = some (l, t, i) →
    (tablesBelow m lvl tb).Nodup →
    (∀ p ∈ ps, p ∉ tablesBelow m lvl tb) →
    l ≤ ps.length →
    view (chainMem m va l t ps leaf) lvl tb va = .leaf 0 leaf
  | 0, tb, l, t, i, hfs, hnd, hfresh, hlen => by
    rw [findStop] at hfs
    split at hfs
    · exact absurd hfs (by simp)
    · obtain ⟨rfl, rfl, rfl⟩ : 0 = l ∧ tb = t ∧ vaddr_to_index va 0 = i := by simpa using hfs
      exact chain_view_leaf hlV hlP hlen
        (fun hm => hfresh tb hm (mem_tablesBelow_self m 0 tb)) hpsnd halign
  | lv + 1, tb, l, t, i, hfs, hnd, hfresh, hlen => by
    rw [findStop] at hfs
    split at hfs
    · rename_i hc
      have hlink : isLink m tb (vaddr_to_index va (lv + 1)) := ⟨hc.1, hc.2⟩
      have hjlt := vaddr_to_index_lt va (lv + 1)
      have htmem : t ∈ tablesBelow m lv (RISCV_PTE_PPN (m tb (vaddr_to_index va (lv + 1)))) :=
        findStop_mem_tablesBelow _ hfs
      have htbt : tb ≠ t := fun h => head_notin_child hnd hjlt hlink (h ▸ htmem)
      have htbps : tb ∉ ps := fun h => hfresh tb h (mem_tablesBelow_self m _ tb)
      have hsame : chainMem m va l t ps leaf tb (vaddr_to_index va (lv + 1)) =
          m tb (vaddr_to_index va (lv + 1)) := chainMem_untouched (Ne.symm htbt).symm htbps
      have hlink2 : isLink (chainMem m va l t ps leaf) tb (vaddr_to_index va (lv + 1)) := by
        rw [isLink, hsame]
        exact hlink
      rw [view_link_step hlink2, hsame]
      exact chain_view_leaf_from_root hlV hlP hpsnd halign _ hfs
        (nodup_tablesBelow_child hnd hjlt hlink)
        (fun p hp hmem => hfresh p hp
          ((tablesBelow_child_sublist lv hjlt hlink).subset hmem)) hlen
    · obtain ⟨rfl, rfl, rfl⟩ : lv + 1 = l ∧ tb = t ∧ vaddr_to_index va (lv + 1) = i := by
        simpa using hfs
      exact chain_view_leaf hlV hlP hlen
        (fun hm => hfresh tb hm (mem_tablesBelow_self m _ tb)) hpsnd halign

theorem view_bad_zero {m : Mem} {tb w : Nat} (h : isLink m tb (vaddr_to_index w 0)) :
    view m 0 tb w = .bad := by
  rw [view, findStop, if_pos (show _ ∧ _ from ⟨h.1, h.2⟩)]

/-- Frame: an address whose canonical page differs from the mapped address
keeps its translation through a chain install at the (invalid) stop of `va`. -/
theorem chain_view_frame {va w : Nat} {m : Mem} {leaf : Nat} {ps : List Nat}
    (hpsnd : ps.Nodup) (halign : ∀ p ∈ ps, 4096 ∣ p) :
    ∀ {lvl : Nat} (tb : Nat) {l t i : Nat},
    findStop m lvl tb va = some (l, t, i) →
    m t i &&& RISCV_PTE_V = 0 →
    (tablesBelow m lvl tb).Nodup →
    (∀ p ∈ ps, p ∉ tablesBelow m lvl tb) →
    (∃ d, d ≤ lvl ∧ vaddr_to_index w d ≠ vaddr_to_index va d) →
    view (chainMem m va l t ps leaf) lvl tb w = view m lvl tb w
  | 0, tb, l, t, i, hfs, hinv, hnd, hfresh, hd => by
    rw [findStop] at hfs
    split at hfs
    · exact absurd hfs (by simp)
    · obtain ⟨rfl, rfl, rfl⟩ : 0 = l ∧ tb = t ∧ vaddr_to_index va 0 = i := by simpa using hfs
      obtain ⟨d, hdle, hne⟩ := hd
      rw [Nat.le_zero.mp hdle] at hne
      have htbps : tb ∉ ps := fun h => hfresh tb h (mem_tablesBelow_self m 0 tb)
      have hslot : chainMem m va 0 tb ps leaf tb (vaddr_to_index w 0) =
          m tb (vaddr_to_index w 0) := chainMem_parent_other hne htbps
      by_cases hlk : isLink m tb (vaddr_to_index w 0)
      · rw [view_bad_zero hlk, view_bad_zero (show isLink _ tb _ by rw [isLink, hslot]; exact hlk)]
      · rw [view_stop_step hlk,
          view_stop_step (show ¬ isLink _ tb _ by rw [isLink, hslot]; exact hlk), hslot]
  | lv + 1, tb, l, t, i, hfs, hinv, hnd, hfresh, hd => by
    rw [findStop] at hfs
    split at hfs
    · -- link entry at this level: the stop is deeper
      rename_i hc
      have hlink : isLink m tb (vaddr_to_index va (lv + 1)) := ⟨hc.1, hc.2⟩
      have hjlt := vaddr_to_index_lt va (lv + 1)
      have htmem : t ∈ tablesBelow m lv (RISCV_PTE_PPN (m tb (vaddr_to_index va (lv + 1)))) :=
        findStop_mem_tablesBelow _ hfs
      have htbt : tb ≠ t := fun h => head_notin_child hnd hjlt hlink (h ▸ htmem)
      have htbps : tb ∉ ps := fun h => hfresh tb h (mem_tablesBelow_self m _ tb)
      by_cases hww : vaddr_to_index w (lv + 1) = vaddr_to_index va (lv + 1)
      · have hslot : chainMem m va l t ps leaf tb (vaddr_to_index w (lv + 1)) =
            m tb (vaddr_to_index w (lv + 1)) := chainMem_untouched htbt htbps
        have hlkw : isLink m tb (vaddr_to_index w (lv + 1)) := by rw [hww]; exact hlink
        have hlkw2 : isLink (chainMem m va l t ps leaf) tb (vaddr_to_index w (lv + 1)) := by
          rw [isLink, hslot]; exact hlkw
        rw [view_link_step hlkw2, view_link_step hlkw, hslot, hww]
        obtain ⟨d, hdle, hne⟩ := hd
        have hdne : d ≠ lv + 1 := fun h => hne (h ▸ hww)
        exact chain_view_frame hpsnd halign _ hfs hinv
          (nodup_tablesBelow_child hnd hjlt hlink)
          (fun p hp hmem => hfresh p hp
            ((tablesBelow_child_sublist lv hjlt hlink).subset hmem))
          ⟨d, by omega, hne⟩
      · have hslot : chainMem m va l t ps leaf tb (vaddr_to_index w (lv + 1)) =
            m tb (vaddr_to_index w (lv + 1)) := chainMem_untouched htbt htbps
        by_cases hlk : isLink m tb (vaddr_to_index w (lv + 1))
        · have hlk2 : isLink (chainMem m va l t ps leaf) tb (vaddr_to_index w (lv + 1)) := by
            rw [isLink, hslot]; exact hlk
          rw [view_link_step hlk2, view_link_step hlk, hslot]
          refine view_congr _ ?_
          intro u hu j
          have hut : u ≠ t := fun h => sibling_disjoint hnd (vaddr_to_index_lt w (lv + 1))
            hjlt hww hlk hlink (h ▸ hu) htmem
          exact chainMem_untouched hut (fun h2 => hfresh u h2
            ((tablesBelow_child_sublist lv (vaddr_to_index_lt w (lv + 1)) hlk).subset hu))
        · rw [view_stop_step hlk,
            view_stop_step (show ¬ isLink _ tb _ by rw [isLink, hslot]; exact hlk), hslot]
    · -- the stop is at this level, and it is invalid
      obtain ⟨rfl, rfl, rfl⟩ : lv + 1 = l ∧ tb = t ∧ vaddr_to_index va (lv + 1) = i := by
        simpa using hfs
      have htbps : tb ∉ ps := fun h => hfresh tb h (mem_tablesBelow_self m _ tb)
      by_cases hww : vaddr_to_index w (lv + 1) = vaddr_to_index va (lv + 1)
      · have hmview : view m (lv + 1) tb w = .hole := by
          have hstop : ¬ isLink m tb (vaddr_to_index w (lv + 1)) := by
            rw [hww]; exact fun hc2 => hc2.1 hinv
          rw [view_stop_step hstop, hww, if_neg (by simp [hinv])]
        rw [hmview]
        cases ps with
        | nil =>
          have hm : chainMem m va (lv + 1) tb [] leaf = m := by rw [chainMem]
          rw [hm, hmview]
        | cons p ps2 =>
          have hptb : p ≠ tb := fun h =>
            hfresh p (List.mem_cons_self p ps2)
              (by rw [h]; exact mem_tablesBelow_self m _ tb)
          have hslot : chainMem m va (lv + 1) tb (p :: ps2) leaf tb
              (vaddr_to_index w (lv + 1)) = RISCV_PTE_PPN_TO_PTE p ||| RISCV_PTE_V := by
            rw [hww]; exact chainMem_parent_slot_link htbps
          have hlink2 : isLink (chainMem m va (lv + 1) tb (p :: ps2) leaf) tb
              (vaddr_to_index w (lv + 1)) := by
            rw [isLink, hslot]; exact link_pte_is_link p
          rw [view_link_step hlink2, hslot,
            link_pte_ppn (halign p (List.mem_cons_self p ps2))]
          rw [chainMem]
          refine chain_view_div ?_ (List.nodup_cons.mp hpsnd).1 (List.nodup_cons.mp hpsnd).2
            (fun r hr => halign r (List.mem_cons_of_mem p hr)) ?_
          · intro j
            rw [writeSlot, if_neg (fun hc2 => hptb (hc2 : p = tb ∧ _).1), zeroTable,
              if_pos rfl]
          · obtain ⟨d, hdle, hne⟩ := hd
            have hdne : d ≠ lv + 1 := fun h => hne (h ▸ hww)
            exact ⟨d, by omega, hne⟩
      · have hslot : chainMem m va (lv + 1) tb ps leaf tb (vaddr_to_index w (lv + 1)) =
            m tb (vaddr_to_index w (lv + 1)) := chainMem_parent_other hww htbps
        by_cases hlk : isLink m tb (vaddr_to_index w (lv + 1))
        · have hlk2 : isLink (chainMem m va (lv + 1) tb ps leaf) tb
              (vaddr_to_index w (lv + 1)) := by
            rw [isLink, hslot]; exact hlk
          rw [view_link_step hlk2, view_link_step hlk, hslot]
          refine view_congr _ ?_
          intro u hu j
          have hut : u ≠ tb := fun h =>
            head_notin_child hnd (vaddr_to_index_lt w (lv + 1)) hlk (h ▸ hu)
          exact chainMem_untouched hut (fun h2 => hfresh u h2
            ((tablesBelow_child_sublist lv (vaddr_to_index_lt w (lv + 1)) hlk).subset hu))
        · rw [view_stop_step hlk,
            view_stop_step (show ¬ isLink _ tb _ by rw [isLink, hslot]; exact hlk), hslot]

/-! ## Reachable tables after one mapped page -/

theorem flatMap_eq_single {α β : Type} {xs : List α} {f : α → List β} {j0 : α}
    (hj0 : j0 ∈ xs) (hxs : xs.Nodup) (h : ∀ x ∈ xs, x ≠ j0 → f x = []) :
    xs.flatMap f = f j0 := by
  induction xs with
  | nil => simp at hj0
  | cons x xs ih =>
    rw [List.flatMap_cons]
    rcases List.mem_cons.mp hj0 with rfl | hj0m
    · have hrest : xs.flatMap f = [] := by
        have : xs.flatMap f = xs.flatMap (fun _ => ([] : List β)) :=
          flatMap_congr (fun y hy => h y (List.mem_cons_of_mem _ hy)
            (fun hyx => (List.nodup_cons.mp hxs).1 (hyx ▸ hy)))
        simp [this]
      rw [hrest, List.append_nil]
    · have hxj : x ≠ j0 := fun hx => (List.nodup_cons.mp hxs).1 (hx ▸ hj0m)
      rw [h x (List.mem_cons_self _ _) hxj, List.nil_append]
      exact ih hj0m (List.nodup_cons.mp hxs).2
        (fun y hy hyj => h y (List.mem_cons_of_mem _ hy) hyj)

theorem flatMap_perm_update {α β : Type} {xs : List α} {f g : α → List β}
    {j0 : α} {e : List β} (hxs : xs.Nodup) (hj0 : j0 ∈ xs)
    (hsame : ∀ x ∈ xs, x ≠ j0 → g x = f x) (hperm : (g j0).Perm (f j0 ++ e)) :
    (xs.flatMap g).Perm (xs.flatMap f ++ e) := by
  induction xs with
  | nil => simp at hj0
  | cons x xs ih =>
    rw [List.flatMap_cons, List.flatMap_cons]
    rcases List.mem_cons.mp hj0 with rfl | hj0m
    · have hgs : xs.flatMap g = xs.flatMap f :=
        flatMap_congr (fun y hy => hsame y (List.mem_cons_of_mem _ hy)
          (fun hyx => (List.nodup_cons.mp hxs).1 (hyx ▸ hy)))
      rw [hgs]
      refine (hperm.append_right (xs.flatMap f)).trans ?_
      rw [List.append_assoc, List.append_assoc]
      exact (List.perm_append_comm).append_left (f j0)
    · have hxj : x ≠ j0 := fun hx => (List.nodup_cons.mp hxs).1 (hx ▸ hj0m)
      rw [hsame x (List.mem_cons_self _ _) hxj]
      refine ((ih (List.nodup_cons.mp hxs).2 hj0m
        (fun y hy => hsame y (List.mem_cons_of_mem _ hy))).append_left (f x)).trans ?_
      rw [List.append_assoc]

/-- The chain pages themselves form the new subtree under the stop. -/
theorem chain_tablesBelow {va : Nat} {leaf : Nat} :
    ∀ {l : Nat} {m : Mem} {p : Nat} {ps : List Nat},
    (∀ j, m p j = 0) → p ∉ ps → ps.Nodup → (∀ q ∈ ps, 4096 ∣ q) → l ≤ ps.length →
    tablesBelow (chainMem m va l p ps leaf) l p = p :: ps.take l
  | 0, m, p, ps, _, _, _, _, _ => by rw [tablesBelow_zero, List.take_zero]
  | l + 1, m, p, [], _, _, _, _, hlen => by simp at hlen
  | l + 1, m, p, q :: qs, hzero, hpps, hnodup, halign, hlen => by
    have hpq : p ≠ q := fun h => hpps (h ▸ List.mem_cons_self q qs)
    have hj0 := vaddr_to_index_lt va (l + 1)
    have hslot : chainMem m va (l + 1) p (q :: qs) leaf p (vaddr_to_index va (l + 1)) =
        RISCV_PTE_PPN_TO_PTE q ||| RISCV_PTE_V := chainMem_parent_slot_link hpps
    have hother : ∀ j, j ≠ vaddr_to_index va (l + 1) →
        chainMem m va (l + 1) p (q :: qs) leaf p j = 0 := fun j hj => by
      rw [chainMem_parent_other hj hpps, hzero]
    have hcond : chainMem m va (l + 1) p (q :: qs) leaf p (vaddr_to_index va (l + 1)) &&&
        RISCV_PTE_V ≠ 0 ∧ chainMem m va (l + 1) p (q :: qs) leaf p
          (vaddr_to_index va (l + 1)) &&& RISCV_PTE_PERM_MASK = 0 := by
      rw [hslot]
      exact ⟨(link_pte_is_link q).1, (link_pte_is_link q).2⟩
    have hsides : ∀ x ∈ List.range RISCV_MMU_PT_ENTRIES, x ≠ vaddr_to_index va (l + 1) →
        (if chainMem m va (l + 1) p (q :: qs) leaf p x &&& RISCV_PTE_V ≠ 0 ∧
            chainMem m va (l + 1) p (q :: qs) leaf p x &&& RISCV_PTE_PERM_MASK = 0 then
          tablesBelow (chainMem m va (l + 1) p (q :: qs) leaf) l
            (RISCV_PTE_PPN (chainMem m va (l + 1) p (q :: qs) leaf p x))
        else []) = [] := by
      intro x _ hx
      rw [hother x hx]
      simp
    have hflat := flatMap_eq_single (mem_range_entries hj0) (List.nodup_range _) hsides
    rw [tablesBelow_succ, hflat]
    simp only [if_pos hcond]
    rw [hslot, link_pte_ppn (halign q (List.mem_cons_self q qs)), List.take_succ_cons]
    refine congrArg (List.cons p) ?_
    have hrec : chainMem m va (l + 1) p (q :: qs) leaf =
        chainMem (writeSlot (zeroTable m q) p (vaddr_to_index va (l + 1))
          (RISCV_PTE_PPN_TO_PTE q ||| RISCV_PTE_V)) va l q qs leaf := by rw [chainMem]
    rw [hrec]
    refine @chain_tablesBelow va leaf l (writeSlot (zeroTable m q) p
      (vaddr_to_index va (l + 1)) (RISCV_PTE_PPN_TO_PTE q ||| RISCV_PTE_V)) q qs ?_
      (List.nodup_cons.mp hnodup).1 (List.nodup_cons.mp hnodup).2
      (fun r hr => halign r (List.mem_cons_of_mem q hr)) (by simpa using hlen)
    intro j
    rw [writeSlot, if_neg (fun hc => hpq ((hc : q = p ∧ _).1.symm)), zeroTable, if_pos rfl]

/-- After a successful chain install the reachable tables are the old ones
plus the consumed free-list prefix. -/
theorem chain_tablesBelow_perm {va : Nat} {m : Mem} {leaf : Nat} {ps : List Nat}
    (hpsnd : ps.Nodup) (halign : ∀ p ∈ ps, 4096 ∣ p) :
    ∀ {lvl : Nat} (tb : Nat) {l t i : Nat},
    findStop m lvl tb va = some (l, t, i) →
    m t i &&& RISCV_PTE_V = 0 →
    (tablesBelow m lvl tb).Nodup →
    (∀ p ∈ ps, p ∉ tablesBelow m lvl tb) →
    l ≤ ps.length →
    (tablesBelow (chainMem m va l t ps leaf) lvl tb).Perm
      (tablesBelow m lvl tb ++ ps.take l)
  | 0, tb, l, t, i, hfs, hinv, hnd, hfresh, hlen => by
    rw [findStop] at hfs
    split at hfs
    · exact absurd hfs (by simp)
    · obtain ⟨rfl, rfl, rfl⟩ : 0 = l ∧ tb = t ∧ vaddr_to_index va 0 = i := by simpa using hfs
      rw [List.take_zero, List.append_nil, tablesBelow_zero, tablesBelow_zero]
  | lv + 1, tb, l, t, i, hfs, hinv, hnd, hfresh, hlen => by
    have hj0 := vaddr_to_index_lt va (lv + 1)
    rw [findStop] at hfs
    split at hfs
    · -- link entry: recurse into the child holding the stop
      rename_i hc
      have hlink : isLink m tb (vaddr_to_index va (lv + 1)) := ⟨hc.1, hc.2⟩
      have htmem : t ∈ tablesBelow m lv (RISCV_PTE_PPN (m tb (vaddr_to_index va (lv + 1)))) :=
        findStop_mem_tablesBelow _ hfs
      have htbt : tb ≠ t := fun h => head_notin_child hnd hj0 hlink (h ▸ htmem)
      have htbps : tb ∉ ps := fun h => hfresh tb h (mem_tablesBelow_self m _ tb)
      have hslotw : ∀ j, chainMem m va l t ps leaf tb j = m tb j := fun j =>
        chainMem_untouched htbt htbps
      rw [tablesBelow_succ, tablesBelow_succ, List.cons_append]
      have hstep : (tablesBelow (chainMem m va l t ps leaf) lv
          (RISCV_PTE_PPN (m tb (vaddr_to_index va (lv + 1))))).Perm
          (tablesBelow m lv (RISCV_PTE_PPN (m tb (vaddr_to_index va (lv + 1)))) ++
            ps.take l) :=
        chain_tablesBelow_perm hpsnd halign _ hfs hinv
          (nodup_tablesBelow_child hnd hj0 hlink)
          (fun p hp hmem => hfresh p hp
            ((tablesBelow_child_sublist lv hj0 hlink).subset hmem)) hlen
      refine (List.perm_cons tb).mpr (flatMap_perm_update
        (List.nodup_range RISCV_MMU_PT_ENTRIES) (mem_range_entries hj0) ?_ ?_)
      · -- slots other than the one leading to the stop keep their subtrees
        intro x hxmem hx
        rw [hslotw x]
        by_cases hlk : isLink m tb x
        · rw [if_pos ⟨hlk.1, hlk.2⟩, if_pos ⟨hlk.1, hlk.2⟩]
          refine tablesBelow_congr _ ?_
          intro u hu j2
          have hxlt : x < 512 := List.mem_range.mp hxmem
          have hut : u ≠ t := fun h => sibling_disjoint hnd hxlt hj0 hx hlk hlink
            (h ▸ hu) htmem
          exact chainMem_untouched hut (fun h2 => hfresh u h2
            ((tablesBelow_child_sublist lv hxlt hlk).subset hu))
        · rw [if_neg (fun hc2 => hlk ⟨hc2.1, hc2.2⟩), if_neg (fun hc2 => hlk ⟨hc2.1, hc2.2⟩)]
      · -- the stop-holding slot: its subtree grows by the chain pages
        rw [hslotw]
        rw [if_pos ⟨hlink.1, hlink.2⟩, if_pos ⟨hlink.1, hlink.2⟩]
        exact hstep
    · -- the stop is at this level
      obtain ⟨rfl, rfl, rfl⟩ : lv + 1 = l ∧ tb = t ∧ vaddr_to_index va (lv + 1) = i := by
        simpa using hfs
      have htbps : tb ∉ ps := fun h => hfresh tb h (mem_tablesBelow_self m _ tb)
      cases ps with
      | nil => simp at hlen
      | cons p ps2 =>
        have hptb : p ≠ tb := fun h => hfresh p (List.mem_cons_self p ps2)
          (by rw [h]; exact mem_tablesBelow_self m _ tb)
        have hslot : chainMem m va (lv + 1) tb (p :: ps2) leaf tb
            (vaddr_to_index va (lv + 1)) = RISCV_PTE_PPN_TO_PTE p ||| RISCV_PTE_V :=
          chainMem_parent_slot_link htbps
        rw [tablesBelow_succ, tablesBelow_succ, List.cons_append]
        refine (List.perm_cons tb).mpr (flatMap_perm_update
          (List.nodup_range RISCV_MMU_PT_ENTRIES) (mem_range_entries hj0) ?_ ?_)
        · intro x hxmem hx
          rw [chainMem_parent_other hx htbps]
          by_cases hlk : isLink m tb x
          · rw [if_pos ⟨hlk.1, hlk.2⟩, if_pos ⟨hlk.1, hlk.2⟩]
            refine tablesBelow_congr _ ?_
            intro u hu j2
            have hxlt : x < 512 := List.mem_range.mp hxmem
            have hut : u ≠ tb := fun h => head_notin_child hnd hxlt hlk (h ▸ hu)
            exact chainMem_untouched hut (fun h2 => hfresh u h2
              ((tablesBelow_child_sublist lv hxlt hlk).subset hu))
          · rw [if_neg (fun hc2 => hlk ⟨hc2.1, hc2.2⟩), if_neg (fun hc2 => hlk ⟨hc2.1, hc2.2⟩)]
        · rw [hslot]
          rw [if_pos ⟨(link_pte_is_link p).1, (link_pte_is_link p).2⟩,
            if_neg (fun hc2 => by rw [hinv] at hc2; exact hc2.1 rfl)]
          rw [List.nil_append, link_pte_ppn (halign p (List.mem_cons_self p ps2)),
            List.take_succ_cons]
          have hrec : chainMem m va (lv + 1) tb (p :: ps2) leaf =
              chainMem (writeSlot (zeroTable m p) tb (vaddr_to_index va (lv + 1))
                (RISCV_PTE_PPN_TO_PTE p ||| RISCV_PTE_V)) va lv p ps2 leaf := by
            rw [chainMem]
          rw [hrec]
          rw [@chain_tablesBelow va leaf lv (writeSlot (zeroTable m p) tb
            (vaddr_to_index va (lv + 1)) (RISCV_PTE_PPN_TO_PTE p ||| RISCV_PTE_V)) p ps2
            (fun j => by
              rw [writeSlot, if_neg (fun hc2 => hptb ((hc2 : p = tb ∧ _).1)), zeroTable,
                if_pos rfl])
            (List.nodup_cons.mp hpsnd).1 (List.nodup_cons.mp hpsnd).2
            (fun r hr => halign r (List.mem_cons_of_mem p hr)) (by simpa using hlen)]

/-! ## Operational behaviour of the map visitor -/

theorem map_cb_at_zero (a : arch_aspace) (flags : Nat) {pte : Nat}
    (hpte : pte &&& RISCV_PTE_V = 0) (i va : Nat) (err : Int) (paC cnt : Nat) :
    map_cb a flags 0 i pte va err (paC, cnt) =
      some ((if cnt - 1 = 0 then .COMMIT_AND_HALT else .COMMIT_AND_RESTART),
        map_leaf_pte a flags paC, (va + PAGE_SIZE) % 2 ^ 64, err,
        ((paC + PAGE_SIZE) % 2 ^ 64, cnt - 1)) := by
  rw [map_cb, map_leaf_pte]
  simp only [hpte, ne_eq, not_true_eq_false, if_neg, Nat.lt_irrefl, if_false,
    reduceIte]
  by_cases h : cnt - 1 = 0 <;> simp [h]

theorem map_cb_at_succ (a : arch_aspace) (flags : Nat) {pte : Nat}
    (hpte : pte &&& RISCV_PTE_V = 0) (l i va : Nat) (err : Int) (paC cnt : Nat) :
    map_cb a flags (l + 1) i pte va err (paC, cnt) =
      some (.ALLOC_PT, pte, va, err, (paC, cnt)) := by
  rw [map_cb]
  simp [hpte]

theorem map_cb_valid (a : arch_aspace) (flags : Nat) {pte : Nat}
    (hpte : pte &&& RISCV_PTE_V ≠ 0) (l i va : Nat) (err : Int) (pc : Nat × Nat) :
    map_cb a flags l i pte va err pc = none := by
  rw [map_cb]
  simp [hpte]

/-- One page of `arch_mmu_map`, from an invalid stop, with enough free pages:
the chain is installed, the cursors advance, and the walk restarts (or halts
after the last page). -/
theorem map_walk_loop_success (a : arch_aspace) (flags : Nat) {va : Nat} :
    ∀ {L : Nat} {s : MMUState} (t : Nat) (err : Int) (paC cnt : Nat),
    0 < cnt →
    s.mem t (vaddr_to_index va L) &&& RISCV_PTE_V = 0 →
    t ∉ s.free → s.free.Nodup →
    L ≤ s.free.length →
    riscv_pt_walk_loop (map_cb a flags) L va s t err (paC, cnt) =
      if cnt - 1 = 0 then
        StepOut.halt err
          ⟨chainMem s.mem va L t (s.free.take L) (map_leaf_pte a flags paC),
            s.free.drop L, s.flushes⟩ ((paC + PAGE_SIZE) % 2 ^ 64, cnt - 1)
      else
        StepOut.restart ((va + PAGE_SIZE) % 2 ^ 64) err
          ⟨chainMem s.mem va L t (s.free.take L) (map_leaf_pte a flags paC),
            s.free.drop L, s.flushes⟩ ((paC + PAGE_SIZE) % 2 ^ 64, cnt - 1)
  | 0, s, t, err, paC, cnt, hcnt, hinv, htf, hnd, hlen => by
    have hstop : ¬ isLink s.mem t (vaddr_to_index va 0) := fun hc => hc.1 hinv
    have hchain : chainMem s.mem va 0 t (s.free.take 0) (map_leaf_pte a flags paC) =
        writeSlot s.mem t (vaddr_to_index va 0) (map_leaf_pte a flags paC) := by
      rw [chainMem]
    by_cases h1 : cnt - 1 = 0
    · have hcb : map_cb a flags 0 (vaddr_to_index va 0) (s.mem t (vaddr_to_index va 0))
          va err (paC, cnt) = some (.COMMIT_AND_HALT, map_leaf_pte a flags paC,
            (va + PAGE_SIZE) % 2 ^ 64, err, ((paC + PAGE_SIZE) % 2 ^ 64, cnt - 1)) := by
        rw [map_cb_at_zero a flags hinv _ va err paC cnt, if_pos h1]
      rw [walk_loop_cb_commit_halt (map_cb a flags) hstop hcb, if_pos h1, hchain, List.drop_zero]
    · have hcb : map_cb a flags 0 (vaddr_to_index va 0) (s.mem t (vaddr_to_index va 0))
          va err (paC, cnt) = some (.COMMIT_AND_RESTART, map_leaf_pte a flags paC,
            (va + PAGE_SIZE) % 2 ^ 64, err, ((paC + PAGE_SIZE) % 2 ^ 64, cnt - 1)) := by
        rw [map_cb_at_zero a flags hinv _ va err paC cnt, if_neg h1]
      rw [walk_loop_cb_commit_restart (map_cb a flags) hstop hcb, if_neg h1, hchain, List.drop_zero]
  | L + 1, s, t, err, paC, cnt, hcnt, hinv, htf, hnd, hlen => by
    have hstop : ¬ isLink s.mem t (vaddr_to_index va (L + 1)) := fun hc => hc.1 hinv
    rcases hfr : s.free with _ | ⟨p, rest⟩
    · rw [hfr] at hlen
      simp at hlen
    · have hpt : p ≠ t := fun h => htf (hfr ▸ h ▸ List.mem_cons_self p rest)
      rw [walk_loop_cb_alloc_step (map_cb a flags) hstop
        (map_cb_at_succ a flags hinv L _ va err paC cnt) hfr]
      have hmem2 : (writeSlot (zeroTable s.mem p) t (vaddr_to_index va (L + 1))
          (RISCV_PTE_PPN_TO_PTE p ||| RISCV_PTE_V)) p (vaddr_to_index va L) = 0 := by
        rw [writeSlot, if_neg (fun hc => hpt (hc : p = t ∧ _).1), zeroTable, if_pos rfl]
      have hndc : p ∉ rest ∧ rest.Nodup := List.nodup_cons.mp (hfr ▸ hnd)
      have hchain : chainMem s.mem va (L + 1) t ((p :: rest).take (L + 1))
          (map_leaf_pte a flags paC) =
          chainMem (writeSlot (zeroTable s.mem p) t (vaddr_to_index va (L + 1))
            (RISCV_PTE_PPN_TO_PTE p ||| RISCV_PTE_V)) va L p (rest.take L)
            (map_leaf_pte a flags paC) := by
        rw [List.take_succ_cons, chainMem]
      rw [map_walk_loop_success a flags p err paC cnt hcnt
        (by dsimp only; rw [hmem2]; simp) hndc.1 hndc.2
        (by have h2 := hfr ▸ hlen; simpa using h2)]
      rw [hchain, List.drop_succ_cons]

/-- One page of `arch_mmu_map` with too few free pages: the links written so
far stay committed, the free list is exhausted, and the walk fails with
`ERR_NO_MEMORY`. -/
theorem map_walk_loop_oom (a : arch_aspace) (flags : Nat) {va : Nat} :
    ∀ {L : Nat} {s : MMUState} (t : Nat) (err : Int) (paC cnt : Nat),
    s.mem t (vaddr_to_index va L) &&& RISCV_PTE_V = 0 →
    t ∉ s.free → s.free.Nodup →
    s.free.length < L →
    riscv_pt_walk_loop (map_cb a flags) L va s t err (paC, cnt) =
      StepOut.halt ERR_NO_MEMORY
        ⟨chainMem s.mem va L t s.free (map_leaf_pte a flags paC), [], s.flushes⟩
        (paC, cnt)
  | 0, s, t, err, paC, cnt, hinv, htf, hnd, hlen => by simp at hlen
  | L + 1, s, t, err, paC, cnt, hinv, htf, hnd, hlen => by
    have hstop : ¬ isLink s.mem t (vaddr_to_index va (L + 1)) := fun hc => hc.1 hinv
    rcases hfr : s.free with _ | ⟨p, rest⟩
    · rw [walk_loop_cb_alloc_nomem (map_cb a flags) hstop
        (map_cb_at_succ a flags hinv L _ va err paC cnt) hfr]
      have hchain : chainMem s.mem va (L + 1) t ([] : List Nat)
          (map_leaf_pte a flags paC) = s.mem := by rw [chainMem]
      rw [hchain]
      conv_lhs => rw [show s = (⟨s.mem, s.free, s.flushes⟩ : MMUState) from rfl]
      rw [hfr]
    · have hpt : p ≠ t := fun h => htf (hfr ▸ h ▸ List.mem_cons_self p rest)
      rw [walk_loop_cb_alloc_step (map_cb a flags) hstop
        (map_cb_at_succ a flags hinv L _ va err paC cnt) hfr]
      have hmem2 : (writeSlot (zeroTable s.mem p) t (vaddr_to_index va (L + 1))
          (RISCV_PTE_PPN_TO_PTE p ||| RISCV_PTE_V)) p (vaddr_to_index va L) = 0 := by
        rw [writeSlot, if_neg (fun hc => hpt (hc : p = t ∧ _).1), zeroTable, if_pos rfl]
      have hndc : p ∉ rest ∧ rest.Nodup := List.nodup_cons.mp (hfr ▸ hnd)
      have hchain : chainMem s.mem va (L + 1) t (p :: rest) (map_leaf_pte a flags paC) =
          chainMem (writeSlot (zeroTable s.mem p) t (vaddr_to_index va (L + 1))
            (RISCV_PTE_PPN_TO_PTE p ||| RISCV_PTE_V)) va L p rest
            (map_leaf_pte a flags paC) := by
        rw [chainMem]
      rw [map_walk_loop_oom a flags p err paC cnt
        (by dsimp only; rw [hmem2]; simp) hndc.1 hndc.2
        (by have h2 := hfr ▸ hlen; simpa using h2)]
      rw [hchain]

/-! ## Helpers for the multi-page induction -/

theorem view_hole_elim {m : Mem} {lvl tb va : Nat} (h : view m lvl tb va = .hole) :
    ∃ l t, findStop m lvl tb va = some (l, t, vaddr_to_index va l) ∧
      m t (vaddr_to_index va l) &&& RISCV_PTE_V = 0 ∧ l ≤ lvl := by
  rw [view] at h
  rcases hfs : findStop m lvl tb va with _ | ⟨l, t, i⟩
  · rw [hfs] at h
    simp at h
  · obtain ⟨hi, hle, _⟩ := findStop_stop tb hfs
    subst hi
    rw [hfs] at h
    dsimp only at h
    refine ⟨l, t, rfl, ?_, hle⟩
    by_cases hv : m t (vaddr_to_index va l) &&& RISCV_PTE_V ≠ 0
    · rw [if_pos hv] at h
      exact absurd h (by simp)
    · push_neg at hv
      exact hv

/-- The walk from an ancestor of the stop reaches the chain install the same
way the mapped address's own walk does. -/
theorem chain_view_from_root {va : Nat} {m : Mem} {leaf : Nat} {ps : List Nat} :
    ∀ {lvl : Nat} (tb : Nat) {l t i : Nat},
    findStop m lvl tb va = some (l, t, i) →
    (tablesBelow m lvl tb).Nodup →
    (∀ p ∈ ps, p ∉ tablesBelow m lvl tb) →
    view (chainMem m va l t ps leaf) lvl tb va = view (chainMem m va l t ps leaf) l t va
  | 0, tb, l, t, i, hfs, hnd, hfresh => by
    rw [findStop] at hfs
    split at hfs
    · exact absurd hfs (by simp)
    · obtain ⟨rfl, rfl, rfl⟩ : 0 = l ∧ tb = t ∧ vaddr_to_index va 0 = i := by simpa using hfs
      rfl
  | lv + 1, tb, l, t, i, hfs, hnd, hfresh => by
    rw [findStop] at hfs
    split at hfs
    · rename_i hc
      have hlink : isLink m tb (vaddr_to_index va (lv + 1)) := ⟨hc.1, hc.2⟩
      have hjlt := vaddr_to_index_lt va (lv + 1)
      have htmem : t ∈ tablesBelow m lv (RISCV_PTE_PPN (m tb (vaddr_to_index va (lv + 1)))) :=
        findStop_mem_tablesBelow _ hfs
      have htbt : tb ≠ t := fun h => head_notin_child hnd hjlt hlink (h ▸ htmem)
      have htbps : tb ∉ ps := fun h => hfresh tb h (mem_tablesBelow_self m _ tb)
      have hsame : chainMem m va l t ps leaf tb (vaddr_to_index va (lv + 1)) =
          m tb (vaddr_to_index va (lv + 1)) := chainMem_untouched htbt htbps
      have hlink2 : isLink (chainMem m va l t ps leaf) tb (vaddr_to_index va (lv + 1)) := by
        rw [isLink, hsame]
        exact hlink
      rw [view_link_step hlink2, hsame]
      exact chain_view_from_root _ hfs (nodup_tablesBelow_child hnd hjlt hlink)
        (fun p hp hmem => hfresh p hp
          ((tablesBelow_child_sublist lv hjlt hlink).subset hmem))
    · obtain ⟨rfl, rfl, rfl⟩ : lv + 1 = l ∧ tb = t ∧ vaddr_to_index va (lv + 1) = i := by
        simpa using hfs
      rfl

theorem canPage_ne_exists_idx {w v : Nat} (h : canPage w ≠ canPage v) :
    ∃ d, d ≤ 2 ∧ vaddr_to_index w d ≠ vaddr_to_index v d := by
  by_contra hcon
  push_neg at hcon
  exact h (canPage_eq_iff.mpr (fun l hl => hcon l hl))

theorem canPage_pages_ne {va c i j : Nat} (hal : 4096 ∣ va)
    (hno : va % 2 ^ 39 + c * 4096 ≤ 2 ^ 39) (hi : i < c) (hj : j < c) (hne : i ≠ j) :
    canPage (va + i * 4096) ≠ canPage (va + j * 4096) := by
  unfold canPage
  omega

theorem canPage_offset {va i off : Nat} (hal : 4096 ∣ va) (hoff : off < 4096) :
    canPage (va + i * 4096 + off) = canPage (va + i * 4096) := by
  unfold canPage
  omega

theorem findStop_eq_of_idx {m : Mem} {w v : Nat}
    (hidx : ∀ d, d ≤ 2 → vaddr_to_index w d = vaddr_to_index v d) :
    ∀ {lvl : Nat}, lvl ≤ 2 → ∀ (tb : Nat), findStop m lvl tb w = findStop m lvl tb v
  | 0, hlvl, tb => by
    rw [findStop, findStop, hidx 0 (by omega)]
  | lv + 1, hlvl, tb => by
    rw [findStop, findStop, hidx (lv + 1) hlvl]
    by_cases hlk : m tb (vaddr_to_index v (lv + 1)) &&& RISCV_PTE_V ≠ 0 ∧
        m tb (vaddr_to_index v (lv + 1)) &&& RISCV_PTE_PERM_MASK = 0
    · rw [if_pos hlk, if_pos hlk]
      exact findStop_eq_of_idx hidx (by omega) _
    · rw [if_neg hlk, if_neg hlk]

theorem view_eq_of_canPage {m : Mem} {w v : Nat} (h : canPage w = canPage v)
    {lvl : Nat} (hlvl : lvl ≤ 2) (tb : Nat) : view m lvl tb w = view m lvl tb v := by
  have hidx := canPage_eq_iff.mp h
  rw [view, view, findStop_eq_of_idx hidx hlvl tb]

theorem nodup_take_drop_disjoint {α : Type} {l : List α} (h : l.Nodup) {n : Nat} {x : α}
    (hx : x ∈ l.take n) : x ∉ l.drop n := by
  have h2 : (l.take n ++ l.drop n).Nodup := by rw [List.take_append_drop]; exact h
  exact List.disjoint_of_nodup_append h2 hx

theorem riscv_pt_walk_succ {σ : Type} (cb : PageWalkCb σ) (f va root : Nat) (s : MMUState)
    (err : Int) (cbs : σ) :
    riscv_pt_walk cb (f + 1) va root s err cbs =
      match riscv_pt_walk_loop cb 2 va s root err cbs with
      | .halt e s2 c2 => .done e s2 c2
      | .panic s2 c2 => .panic s2 c2
      | .restart v2 e2 s2 c2 => riscv_pt_walk cb f v2 root s2 e2 c2 := rfl

/-- The multi-page behaviour of the `arch_mmu_map` walk: with pairwise
distinct canonical pages, all initially holes, the walk either maps every
page (when the free list cannot run out) or fails with `ERR_NO_MEMORY` after
fully mapping some prefix of the pages, never rolling anything back.  In both
cases translations at other canonical pages are untouched. -/
theorem map_walk_master (a : arch_aspace) (flags : Nat) (root : Nat) :
    ∀ (count : Nat) (s : MMUState) (va pa : Nat) (err : Int),
    0 < count →
    4096 ∣ va → 4096 ∣ pa →
    va + count * 4096 ≤ 2 ^ 64 →
    pa + count * 4096 ≤ 2 ^ 64 →
    va % 2 ^ 39 + count * 4096 ≤ 2 ^ 39 →
    (tablesBelow s.mem 2 root).Nodup →
    (∀ p ∈ s.free, p ∉ tablesBelow s.mem 2 root ∧ 4096 ∣ p) →
    s.free.Nodup →
    flags &&& 28 = flags →
    (∀ i, i < count → view s.mem 2 root (va + i * 4096) = .hole) →
    (∃ s2 cnt2 d,
      riscv_pt_walk (map_cb a flags) count va root s err (pa, count) =
        .done err s2 cnt2 ∧
      d ≤ 2 * count ∧ s2.free = s.free.drop d ∧ s2.flushes = s.flushes ∧
      (tablesBelow s2.mem 2 root).Nodup ∧
      (∀ p ∈ s2.free, p ∉ tablesBelow s2.mem 2 root ∧ 4096 ∣ p) ∧
      s2.free.Nodup ∧
      (∀ i, i < count → view s2.mem 2 root (va + i * 4096) =
        .leaf 0 (map_leaf_pte a flags (pa + i * 4096))) ∧
      (∀ w, (∀ i, i < count → canPage w ≠ canPage (va + i * 4096)) →
        view s2.mem 2 root w = view s.mem 2 root w)) ∨
    (∃ s2 cnt2 k,
      riscv_pt_walk (map_cb a flags) count va root s err (pa, count) =
        .done ERR_NO_MEMORY s2 cnt2 ∧
      k < count ∧ s.free.length ≤ 2 * k + 1 ∧ s2.free = [] ∧ s2.flushes = s.flushes ∧
      (∀ i, i < k → view s2.mem 2 root (va + i * 4096) =
        .leaf 0 (map_leaf_pte a flags (pa + i * 4096))) ∧
      (∀ i, k ≤ i → i < count → view s2.mem 2 root (va + i * 4096) = .hole) ∧
      (∀ w, (∀ i, i < count → canPage w ≠ canPage (va + i * 4096)) →
        view s2.mem 2 root w = view s.mem 2 root w))
  | 0, s, va, pa, err, hcnt, _, _, _, _, _, _, _, _, _, _ => absurd hcnt (by simp)
  | c + 1, s, va, pa, err, _, hva, hpa, hbva, hbpa, hno, hwf, hfree, hfnd, hfl, hholes => by
    have h0 : va + 0 * 4096 = va := by ring
    obtain ⟨l, t, hfs, hinv, hl2⟩ := view_hole_elim (h0 ▸ hholes 0 (Nat.succ_pos c))
    have htmem : t ∈ tablesBelow s.mem 2 root := findStop_mem_tablesBelow root hfs
    have htfree : t ∉ s.free := fun h => (hfree t h).1 htmem
    obtain ⟨hlV, hlP⟩ := map_leaf_pte_valid a pa hfl
    have hpagesne : ∀ i j, i < c + 1 → j < c + 1 → i ≠ j →
        canPage (va + i * 4096) ≠ canPage (va + j * 4096) := fun i j hi hj hne =>
      canPage_pages_ne hva hno hi hj hne
    by_cases hlen : l ≤ s.free.length
    · -- ── enough free pages for this page's chain ──
      have htknd : (s.free.take l).Nodup := (List.take_sublist l s.free).nodup hfnd
      have htkal : ∀ p ∈ s.free.take l, 4096 ∣ p := fun p hp =>
        (hfree p ((List.take_sublist l s.free).subset hp)).2
      have htkfr : ∀ p ∈ s.free.take l, p ∉ tablesBelow s.mem 2 root := fun p hp =>
        (hfree p ((List.take_sublist l s.free).subset hp)).1
      have htklen : l ≤ (s.free.take l).length := by
        rw [List.length_take]
        omega
      have httk : t ∉ s.free.take l := fun h => htfree ((List.take_sublist l s.free).subset h)
      -- the state after page 0
      have hperm := @chain_tablesBelow_perm va s.mem (map_leaf_pte a flags pa)
        (s.free.take l) htknd htkal 2 root l t _ hfs hinv hwf htkfr htklen
      rw [List.take_take, min_self] at hperm
      have hwf2 : (tablesBelow (chainMem s.mem va l t (s.free.take l)
          (map_leaf_pte a flags pa)) 2 root).Nodup := by
        rw [hperm.nodup_iff]
        exact List.nodup_append.mpr ⟨hwf, htknd, fun x hx hx2 => htkfr x hx2 hx⟩
      have hfresh2 : ∀ p ∈ s.free.drop l, p ∉ tablesBelow (chainMem s.mem va l t
          (s.free.take l) (map_leaf_pte a flags pa)) 2 root ∧ 4096 ∣ p := by
        intro p hp
        refine ⟨fun hmem => ?_, (hfree p ((List.drop_sublist l s.free).subset hp)).2⟩
        have := (hperm.mem_iff).mp hmem
        rcases List.mem_append.mp this with h2 | h2
        · exact (hfree p ((List.drop_sublist l s.free).subset hp)).1 h2
        · exact nodup_take_drop_disjoint hfnd h2 hp
      have hleaf0 : view (chainMem s.mem va l t (s.free.take l)
          (map_leaf_pte a flags pa)) 2 root va = .leaf 0 (map_leaf_pte a flags pa) :=
        chain_view_leaf_from_root hlV hlP htknd htkal root hfs hwf htkfr htklen
      have hframe0 : ∀ w, canPage w ≠ canPage va →
          view (chainMem s.mem va l t (s.free.take l) (map_leaf_pte a flags pa)) 2 root w =
            view s.mem 2 root w := fun w hw =>
        chain_view_frame htknd htkal root hfs hinv hwf htkfr (canPage_ne_exists_idx hw)
      by_cases hc0 : c + 1 - 1 = 0
      · -- single page: the visitor replies COMMIT_AND_HALT
        have hc0' : c = 0 := by omega
        subst hc0'
        have hwalk : riscv_pt_walk (map_cb a flags) (0 + 1) va root s err (pa, 0 + 1) =
            .done err ⟨chainMem s.mem va l t (s.free.take l) (map_leaf_pte a flags pa),
              s.free.drop l, s.flushes⟩ ((pa + PAGE_SIZE) % 2 ^ 64, 0 + 1 - 1) := by
          rw [riscv_pt_walk_succ,
            walk_loop_factor (map_cb a flags) root err (pa, 0 + 1) hfs,
            map_walk_loop_success a flags t err pa (0 + 1) (Nat.succ_pos 0) hinv htfree
              hfnd hlen, if_pos hc0]
        left
        refine ⟨_, _, l, hwalk, by omega, rfl, rfl, hwf2, hfresh2,
          (List.drop_sublist l s.free).nodup hfnd, ?_, ?_⟩
        · intro i hi
          have hi0 : i = 0 := by omega
          subst hi0
          rw [h0, show pa + 0 * 4096 = pa by ring]
          exact hleaf0
        · intro w hw
          exact hframe0 w (h0 ▸ hw 0 (Nat.succ_pos 0))
      · -- more pages follow: COMMIT_AND_RESTART, then induction
        have hcpos : 0 < c := by omega
        have hmodva : (va + PAGE_SIZE) % 2 ^ 64 = va + 4096 := by
          rw [show PAGE_SIZE = 4096 from rfl]
          exact Nat.mod_eq_of_lt (by omega)
        have hmodpa : (pa + PAGE_SIZE) % 2 ^ 64 = pa + 4096 := by
          rw [show PAGE_SIZE = 4096 from rfl]
          exact Nat.mod_eq_of_lt (by omega)
        have hwalk1 : riscv_pt_walk (map_cb a flags) (c + 1) va root s err (pa, c + 1) =
            riscv_pt_walk (map_cb a flags) c (va + 4096) root
              ⟨chainMem s.mem va l t (s.free.take l) (map_leaf_pte a flags pa),
                s.free.drop l, s.flushes⟩ err (pa + 4096, c) := by
          rw [riscv_pt_walk_succ,
            walk_loop_factor (map_cb a flags) root err (pa, c + 1) hfs,
            map_walk_loop_success a flags t err pa (c + 1) (Nat.succ_pos c) hinv htfree
              hfnd hlen, if_neg hc0]
          rw [hmodva, hmodpa, Nat.add_sub_cancel]
        have harith : ∀ i : Nat, va + 4096 + i * 4096 = va + (i + 1) * 4096 := fun i => by
          ring
        have harithp : ∀ i : Nat, pa + 4096 + i * 4096 = pa + (i + 1) * 4096 := fun i => by
          ring
        have hholes2 : ∀ i, i < c → view (chainMem s.mem va l t (s.free.take l)
            (map_leaf_pte a flags pa)) 2 root (va + 4096 + i * 4096) = .hole := by
          intro i hi
          rw [harith i]
          have hcp : canPage (va + (i + 1) * 4096) ≠ canPage va :=
            h0 ▸ hpagesne (i + 1) 0 (by omega) (by omega) (by omega)
          rw [hframe0 _ hcp]
          exact hholes (i + 1) (by omega)
        have hrec := map_walk_master a flags root c
          ⟨chainMem s.mem va l t (s.free.take l) (map_leaf_pte a flags pa),
            s.free.drop l, s.flushes⟩ (va + 4096) (pa + 4096) err hcpos
          (by omega) (by omega) (by omega) (by omega) (by omega)
          hwf2 hfresh2 ((List.drop_sublist l s.free).nodup hfnd) hfl hholes2
        rcases hrec with ⟨s3, cnt3, d3, hw3, hd3, hfr3, hfl3, hwf3, hfresh3, hfnd3,
            hviews3, hframe3⟩ |
          ⟨s3, cnt3, k3, hw3, hk3, hlen3, hfr3, hfl3, hleaf3, hhole3, hframe3⟩
        · left
          refine ⟨s3, cnt3, l + d3, hwalk1.trans hw3, by omega, ?_, ?_, hwf3, hfresh3,
            hfnd3, ?_, ?_⟩
          · rw [hfr3]
            dsimp only
            rw [List.drop_drop]
          · rw [hfl3]
          · intro i hi
            cases i with
            | zero =>
              rw [h0, show pa + 0 * 4096 = pa by ring]
              have hav : ∀ i2, i2 < c → canPage va ≠ canPage (va + 4096 + i2 * 4096) := by
                intro i2 hi2
                rw [harith i2]
                exact h0 ▸ hpagesne 0 (i2 + 1) (by omega) (by omega) (by omega)
              rw [hframe3 va hav]
              exact hleaf0
            | succ j =>
              have := hviews3 j (by omega)
              rw [harith j, harithp j] at this
              exact this
          · intro w hw
            have h1 : view s3.mem 2 root w = view (chainMem s.mem va l t (s.free.take l)
                (map_leaf_pte a flags pa)) 2 root w := by
              refine hframe3 w ?_
              intro i2 hi2
              rw [harith i2]
              exact hw (i2 + 1) (by omega)
            rw [h1]
            exact hframe0 w (h0 ▸ hw 0 (by omega))
        · right
          refine ⟨s3, cnt3, k3 + 1, hwalk1.trans hw3, by omega, ?_, hfr3, ?_, ?_, ?_, ?_⟩
          · have hldrop : (s.free.drop l).length = s.free.length - l := by
              rw [List.length_drop]
            dsimp only at hlen3
            omega
          · rw [hfl3]
          · intro i hi
            cases i with
            | zero =>
              rw [h0, show pa + 0 * 4096 = pa by ring]
              have hav : ∀ i2, i2 < c → canPage va ≠ canPage (va + 4096 + i2 * 4096) := by
                intro i2 hi2
                rw [harith i2]
                exact h0 ▸ hpagesne 0 (i2 + 1) (by omega) (by omega) (by omega)
              rw [hframe3 va hav]
              exact hleaf0
            | succ j =>
              have := hleaf3 j (by omega)
              rw [harith j, harithp j] at this
              exact this
          · intro i hki hi
            rcases i with _ | j
            · omega
            · have := hhole3 j (by omega) (by omega)
              rw [harith j] at this
              exact this
          · intro w hw
            have h1 : view s3.mem 2 root w = view (chainMem s.mem va l t (s.free.take l)
                (map_leaf_pte a flags pa)) 2 root w := by
              refine hframe3 w ?_
              intro i2 hi2
              rw [harith i2]
              exact hw (i2 + 1) (by omega)
            rw [h1]
            exact hframe0 w (h0 ▸ hw 0 (by omega))
    · -- ── allocation failure on the very first page ──
      push_neg at hlen
      have hflal : ∀ p ∈ s.free, 4096 ∣ p := fun p hp => (hfree p hp).2
      have hflfr : ∀ p ∈ s.free, p ∉ tablesBelow s.mem 2 root := fun p hp => (hfree p hp).1
      have hwalk : riscv_pt_walk (map_cb a flags) (c + 1) va root s err (pa, c + 1) =
          .done ERR_NO_MEMORY ⟨chainMem s.mem va l t s.free (map_leaf_pte a flags pa),
            [], s.flushes⟩ (pa, c + 1) := by
        rw [riscv_pt_walk_succ,
          walk_loop_factor (map_cb a flags) root err (pa, c + 1) hfs,
          map_walk_loop_oom a flags t err pa (c + 1) hinv htfree hfnd hlen]
      right
      refine ⟨_, _, 0, hwalk, Nat.succ_pos c, by omega, rfl, rfl, ?_, ?_, ?_⟩
      · intro i hi
        exact absurd hi (by omega)
      · intro i _ hi
        rcases i with _ | j
        · rw [h0]
          rw [chain_view_from_root root hfs hwf hflfr]
          exact chain_view_hole hlen hinv htfree hfnd hflal
        · have hcp : ∃ d, d ≤ 2 ∧ vaddr_to_index (va + (j + 1) * 4096) d ≠
              vaddr_to_index va d := by
            refine canPage_ne_exists_idx ?_
            exact h0 ▸ hpagesne (j + 1) 0 (by omega) (by omega) (by omega)
          rw [chain_view_frame hfnd hflal root hfs hinv hwf hflfr hcp]
          exact hholes (j + 1) (by omega)
      · intro w hw
        exact chain_view_frame hfnd hflal root hfs hinv hwf hflfr
          (canPage_ne_exists_idx (h0 ▸ hw 0 (by omega)))

/-! ## Unmap behaviour -/

theorem aspace_limit_eq {a : arch_aspace} (h1 : 1 ≤ a.base + a.size)
    (h2 : a.base + a.size ≤ 2 ^ 64) : aspace_limit a = a.base + a.size - 1 := by
  unfold aspace_limit
  omega

theorem page_mask_zero : page_mask_per_level 0 = 4095 := rfl

/-- One descent of the unmap walk: panic on a large-page leaf or corrupt
structure, otherwise the remaining count drops by exactly one, and the free
list and flush log are untouched. -/
theorem unmap_walk_loop {va : Nat} : ∀ {L : Nat} {s : MMUState} (t : Nat) (err : Int)
    (cnt : Nat), 0 < cnt →
    (∃ s2 c2, riscv_pt_walk_loop unmap_cb L va s t err cnt = .panic s2 c2) ∨
    (cnt = 1 ∧ ∃ s2, riscv_pt_walk_loop unmap_cb L va s t err cnt = .halt err s2 0 ∧
      s2.free = s.free ∧ s2.flushes = s.flushes) ∨
    (1 < cnt ∧ ∃ s2, riscv_pt_walk_loop unmap_cb L va s t err cnt =
      .restart ((va + PAGE_SIZE) % 2 ^ 64) err s2 (cnt - 1) ∧
      s2.free = s.free ∧ s2.flushes = s.flushes)
  | 0, s, t, err, cnt, hcnt => by
    by_cases hlk : isLink s.mem t (vaddr_to_index va 0)
    · exact Or.inl ⟨s, cnt, walk_loop_link_zero unmap_cb hlk⟩
    · by_cases hv : s.mem t (vaddr_to_index va 0) &&& RISCV_PTE_V ≠ 0
      · have hperm : s.mem t (vaddr_to_index va 0) &&& RISCV_PTE_PERM_MASK ≠ 0 :=
          fun hp => hlk ⟨hv, hp⟩
        by_cases hc1 : cnt - 1 = 0
        · refine Or.inr (Or.inl ⟨by omega,
            { s with mem := writeSlot s.mem t (vaddr_to_index va 0) 0 }, ?_, rfl, rfl⟩)
          have hcb : unmap_cb 0 (vaddr_to_index va 0) (s.mem t (vaddr_to_index va 0))
              va err cnt = some (.COMMIT_AND_HALT, 0, (va + PAGE_SIZE) % 2 ^ 64,
                err, 0) := by
            rw [unmap_cb]
            simp [hv, hperm, hc1]
          rw [walk_loop_cb_commit_halt unmap_cb hlk hcb]
        · refine Or.inr (Or.inr ⟨by omega,
            { s with mem := writeSlot s.mem t (vaddr_to_index va 0) 0 }, ?_, rfl, rfl⟩)
          have hcb : unmap_cb 0 (vaddr_to_index va 0) (s.mem t (vaddr_to_index va 0))
              va err cnt = some (.COMMIT_AND_RESTART, 0, (va + PAGE_SIZE) % 2 ^ 64,
                err, cnt - 1) := by
            rw [unmap_cb]
            simp [hv, hperm, hc1]
          rw [walk_loop_cb_commit_restart unmap_cb hlk hcb]
      · push_neg at hv
        by_cases hc1 : cnt - 1 = 0
        · refine Or.inr (Or.inl ⟨by omega, s, ?_, rfl, rfl⟩)
          have hcb : unmap_cb 0 (vaddr_to_index va 0) (s.mem t (vaddr_to_index va 0))
              va err cnt = some (.HALT, s.mem t (vaddr_to_index va 0),
                (va + PAGE_SIZE) % 2 ^ 64, err, 0) := by
            rw [unmap_cb]
            simp [hv, hc1]
          rw [walk_loop_cb_halt unmap_cb hlk hcb]
        · refine Or.inr (Or.inr ⟨by omega, s, ?_, rfl, rfl⟩)
          have hcb : unmap_cb 0 (vaddr_to_index va 0) (s.mem t (vaddr_to_index va 0))
              va err cnt = some (.RESTART, s.mem t (vaddr_to_index va 0),
                (va + PAGE_SIZE) % 2 ^ 64, err, cnt - 1) := by
            rw [unmap_cb]
            simp [hv, hc1]
          rw [walk_loop_cb_restart unmap_cb hlk hcb]
  | L + 1, s, t, err, cnt, hcnt => by
    by_cases hlk : isLink s.mem t (vaddr_to_index va (L + 1))
    · rw [walk_loop_link unmap_cb hlk]
      exact unmap_walk_loop _ err cnt hcnt
    · by_cases hv : s.mem t (vaddr_to_index va (L + 1)) &&& RISCV_PTE_V ≠ 0
      · have hperm : s.mem t (vaddr_to_index va (L + 1)) &&& RISCV_PTE_PERM_MASK ≠ 0 :=
          fun hp => hlk ⟨hv, hp⟩
        refine Or.inl ⟨s, cnt, walk_loop_cb_none unmap_cb hlk ?_⟩
        rw [unmap_cb]
        simp [hv, hperm]
      · push_neg at hv
        by_cases hc1 : cnt - 1 = 0
        · refine Or.inr (Or.inl ⟨by omega, s, ?_, rfl, rfl⟩)
          have hcb : unmap_cb (L + 1) (vaddr_to_index va (L + 1))
              (s.mem t (vaddr_to_index va (L + 1))) va err cnt =
              some (.HALT, s.mem t (vaddr_to_index va (L + 1)),
                (va + PAGE_SIZE) % 2 ^ 64, err, 0) := by
            rw [unmap_cb]
            simp [hv, hc1]
          rw [walk_loop_cb_halt unmap_cb hlk hcb]
        · refine Or.inr (Or.inr ⟨by omega, s, ?_, rfl, rfl⟩)
          have hcb : unmap_cb (L + 1) (vaddr_to_index va (L + 1))
              (s.mem t (vaddr_to_index va (L + 1))) va err cnt =
              some (.RESTART, s.mem t (vaddr_to_index va (L + 1)),
                (va + PAGE_SIZE) % 2 ^ 64, err, cnt - 1) := by
            rw [unmap_cb]
            simp [hv, hc1]
          rw [walk_loop_cb_restart unmap_cb hlk hcb]

/-- The whole unmap walk either panics or returns the threaded error with the
free list and flush log untouched. -/
theorem unmap_walk (root : Nat) : ∀ (cnt : Nat) (va : Nat) (s : MMUState) (err : Int),
    0 < cnt →
    (∃ s2 c2, riscv_pt_walk unmap_cb cnt va root s err cnt = .panic s2 c2) ∨
    (∃ s2 c2, riscv_pt_walk unmap_cb cnt va root s err cnt = .done err s2 c2 ∧
      s2.free = s.free ∧ s2.flushes = s.flushes)
  | 0, va, s, err, hcnt => absurd hcnt (by simp)
  | c + 1, va, s, err, _ => by
    rw [riscv_pt_walk_succ]
    rcases @unmap_walk_loop va 2 s root err (c + 1) (Nat.succ_pos c) with
      ⟨s2, c2, heq⟩ | ⟨hc1, s2, heq, hf, hfl⟩ | ⟨hc1, s2, heq, hf, hfl⟩
    · rw [heq]
      exact Or.inl ⟨s2, c2, rfl⟩
    · rw [heq]
      have hc0 : c = 0 := by omega
      exact Or.inr ⟨s2, 0, rfl, hf, hfl⟩
    · rw [heq]
      have hcpos : 0 < c := by omega
      have hsub : c + 1 - 1 = c := by omega
      rw [hsub]
      rcases unmap_walk root c ((va + PAGE_SIZE) % 2 ^ 64) s2 err hcpos with
        ⟨s3, c3, heq3⟩ | ⟨s3, c3, heq3, hf3, hfl3⟩
      · exact Or.inl ⟨s3, c3, heq3⟩
      · exact Or.inr ⟨s3, c3, heq3, hf3.trans hf, hfl3.trans hfl⟩

/-- The unmap walk over a range of holes changes nothing and succeeds. -/
theorem unmap_walk_holes (root : Nat) : ∀ (cnt : Nat) (va : Nat) (s : MMUState) (err : Int),
    0 < cnt →
    va + cnt * 4096 ≤ 2 ^ 64 →
    (∀ i, i < cnt → view s.mem 2 root (va + i * 4096) = .hole) →
    riscv_pt_walk unmap_cb cnt va root s err cnt = .done err s 0
  | 0, va, s, err, hcnt, _, _ => absurd hcnt (by simp)
  | c + 1, va, s, err, _, hb, hholes => by
    have h0 : va + 0 * 4096 = va := by ring
    obtain ⟨l, t, hfs, hinv, hl2⟩ := view_hole_elim (h0 ▸ hholes 0 (Nat.succ_pos c))
    have hstop : ¬ isLink s.mem t (vaddr_to_index va l) := fun hc => hc.1 hinv
    rw [riscv_pt_walk_succ, walk_loop_factor unmap_cb root err (c + 1) hfs]
    by_cases hc1 : c = 0
    · subst hc1
      have hcb : unmap_cb l (vaddr_to_index va l) (s.mem t (vaddr_to_index va l))
          va err (0 + 1) = some (.HALT, s.mem t (vaddr_to_index va l),
            (va + PAGE_SIZE) % 2 ^ 64, err, 0) := by
        rw [unmap_cb]
        simp [hinv]
      rw [walk_loop_cb_halt unmap_cb hstop hcb]
    · have hcb : unmap_cb l (vaddr_to_index va l) (s.mem t (vaddr_to_index va l))
          va err (c + 1) = some (.RESTART, s.mem t (vaddr_to_index va l),
            (va + PAGE_SIZE) % 2 ^ 64, err, c) := by
        rw [unmap_cb]
        simp [hinv, hc1]
      rw [walk_loop_cb_restart unmap_cb hstop hcb]
      have hcpos : 0 < c := by omega
      have hmod : (va + PAGE_SIZE) % 2 ^ 64 = va + 4096 := by
        rw [show PAGE_SIZE = 4096 from rfl]
        exact Nat.mod_eq_of_lt (by omega)
      rw [hmod]
      refine unmap_walk_holes root c (va + 4096) s err hcpos (by omega) ?_
      intro i hi
      have : va + 4096 + i * 4096 = va + (i + 1) * 4096 := by ring
      rw [this]
      exact hholes (i + 1) (by omega)

/-! ## Further helpers for the claim theorems -/

theorem arch_mmu_query_leaf (a : arch_aspace) (va : Nat) (s : MMUState)
    (hin : ¬ (va < a.base ∨ aspace_limit a < va)) {l pte : Nat}
    (hv : view s.mem 2 a.pt_phys va = .leaf l pte) :
    arch_mmu_query a va s = .done NO_ERROR
      (some (RISCV_PTE_PPN pte ||| (va &&& page_mask_per_level l)))
      (some (pte_flags_to_mmu_flags pte)) := by
  rw [arch_mmu_query_char a va s hin, hv]

theorem arch_mmu_query_hole (a : arch_aspace) (va : Nat) (s : MMUState)
    (hin : ¬ (va < a.base ∨ aspace_limit a < va))
    (hv : view s.mem 2 a.pt_phys va = .hole) :
    arch_mmu_query a va s = .done ERR_NOT_FOUND none none := by
  rw [arch_mmu_query_char a va s hin, hv]

theorem view_leaf_elim {m : Mem} {lvl tb va l pte : Nat}
    (h : view m lvl tb va = .leaf l pte) :
    ∃ t, findStop m lvl tb va = some (l, t, vaddr_to_index va l) ∧
      m t (vaddr_to_index va l) &&& RISCV_PTE_V ≠ 0 ∧
      pte = m t (vaddr_to_index va l) := by
  rw [view] at h
  rcases hfs : findStop m lvl tb va with _ | ⟨l2, t, i⟩
  · rw [hfs] at h
    simp at h
  · obtain ⟨hi, _, _⟩ := findStop_stop tb hfs
    subst hi
    rw [hfs] at h
    dsimp only at h
    by_cases hv : m t (vaddr_to_index va l2) &&& RISCV_PTE_V ≠ 0
    · rw [if_pos hv] at h
      injection h with h1 h2
      subst h1
      exact ⟨t, rfl, hv, h2.symm⟩
    · rw [if_neg hv] at h
      exact absurd h (by simp)

/-- Two addresses whose canonical pages coincide, with one inside an
address-space-bounded mapped range and the other in bounds but outside the
range, cannot both exist when the space is at most one canonical span
(`2^39` bytes) wide. -/
theorem canPage_frame_ne {B S va count w i : Nat} (hva : 4096 ∣ va)
    (hlo : B ≤ va) (hhi : va + count * 4096 ≤ B + S) (hsz : S ≤ 2 ^ 39)
    (hwlo : B ≤ w) (hwhi : w < B + S)
    (hw : w < va ∨ va + count * 4096 ≤ w) (hi : i < count) :
    canPage w ≠ canPage (va + i * 4096) := by
  unfold canPage
  omega

theorem walk_loop_cb_alloc_zero {σ : Type} (cb : PageWalkCb σ) {va : Nat}
    {s : MMUState} {tb : Nat} {err : Int} {cbs : σ} {p2 v2 : Nat} {e2 : Int} {c2 : σ}
    {pa : Nat} {rest : List Nat}
    (h : ¬ isLink s.mem tb (vaddr_to_index va 0))
    (hcb : cb 0 (vaddr_to_index va 0) (s.mem tb (vaddr_to_index va 0))
      va err cbs = some (.ALLOC_PT, p2, v2, e2, c2))
    (hfree : s.free = pa :: rest) :
    riscv_pt_walk_loop cb 0 va s tb err cbs =
      .panic { s with
          mem := writeSlot (zeroTable s.mem pa) tb (vaddr_to_index va 0)
            (RISCV_PTE_PPN_TO_PTE pa ||| RISCV_PTE_V),
          free := rest } c2 := by
  have hc : ¬ (s.mem tb (vaddr_to_index va 0) &&& RISCV_PTE_V ≠ 0 ∧
      s.mem tb (vaddr_to_index va 0) &&& RISCV_PTE_PERM_MASK = 0) := h
  conv_lhs => rw [riscv_pt_walk_loop.eq_def]
  simp only [if_neg hc, hcb, alloc_ptable, hfree]

/-! ## Trace lemmas: where the walker consults its visitor -/

/-- Everything one descent appends to the log is a stopping point (invalid or
leaf entry), its level is bounded by the entry level, and levels strictly
decrease along the descent. -/
theorem walk_loop_trace {σ : Type} (cb : PageWalkCb σ) :
    ∀ (L : Nat) (va : Nat) (s : MMUState) (tb : Nat) (err : Int) (cbs : σ)
      (tr : List Visit),
    ∃ ds, stepVisits (riscv_pt_walk_loop (traceCb cb) L va s tb err (cbs, tr)) =
        tr ++ ds ∧
      (∀ v ∈ ds, (v.pte &&& RISCV_PTE_V = 0 ∨ v.pte &&& RISCV_PTE_PERM_MASK ≠ 0) ∧
        v.level ≤ L) ∧
      List.Chain' (fun v1 v2 => v2.level < v1.level) ds
  | 0, va, s, tb, err, cbs, tr => by
    by_cases hlk : isLink s.mem tb (vaddr_to_index va 0)
    · refine ⟨[], ?_, by simp, by simp⟩
      rw [walk_loop_link_zero (traceCb cb) hlk]
      simp [stepVisits]
    · have hstp : s.mem tb (vaddr_to_index va 0) &&& RISCV_PTE_V = 0 ∨
          s.mem tb (vaddr_to_index va 0) &&& RISCV_PTE_PERM_MASK ≠ 0 := by
        rw [isLink] at hlk
        tauto
      rcases hcb : cb 0 (vaddr_to_index va 0) (s.mem tb (vaddr_to_index va 0)) va err cbs
        with _ | ⟨r, p2, v2, e2, c2⟩
      · have htcb : traceCb cb 0 (vaddr_to_index va 0) (s.mem tb (vaddr_to_index va 0))
            va err (cbs, tr) = none := by
          rw [traceCb]
          simp [hcb]
        refine ⟨[], ?_, by simp, by simp⟩
        rw [walk_loop_cb_none (traceCb cb) hlk htcb]
        simp [stepVisits]
      · have htcb : traceCb cb 0 (vaddr_to_index va 0) (s.mem tb (vaddr_to_index va 0))
            va err (cbs, tr) = some (r, p2, v2, e2,
              (c2, tr ++ [⟨0, vaddr_to_index va 0,
                s.mem tb (vaddr_to_index va 0), va⟩])) := by
          rw [traceCb]
          simp [hcb]
        refine ⟨[⟨0, vaddr_to_index va 0, s.mem tb (vaddr_to_index va 0), va⟩], ?_,
          ?_, by simp⟩
        · cases r
          · rw [walk_loop_cb_halt (traceCb cb) hlk htcb]
            rfl
          · rw [walk_loop_cb_restart (traceCb cb) hlk htcb]
            rfl
          · rw [walk_loop_cb_commit_restart (traceCb cb) hlk htcb]
            rfl
          · rw [walk_loop_cb_commit_halt (traceCb cb) hlk htcb]
            rfl
          · rcases hal : s.free with _ | ⟨pa, rest⟩
            · rw [walk_loop_cb_alloc_nomem (traceCb cb) hlk htcb hal]
              rfl
            · rw [walk_loop_cb_alloc_zero (traceCb cb) hlk htcb hal]
              rfl
        · intro v hv
          rw [List.mem_singleton] at hv
          subst hv
          exact ⟨hstp, Nat.le_refl 0⟩
  | L + 1, va, s, tb, err, cbs, tr => by
    by_cases hlk : isLink s.mem tb (vaddr_to_index va (L + 1))
    · rw [walk_loop_link (traceCb cb) hlk]
      obtain ⟨ds, h1, h2, h3⟩ := walk_loop_trace cb L va s
        (RISCV_PTE_PPN (s.mem tb (vaddr_to_index va (L + 1)))) err cbs tr
      exact ⟨ds, h1, fun v hv => ⟨(h2 v hv).1, Nat.le_succ_of_le (h2 v hv).2⟩, h3⟩
    · have hstp : s.mem tb (vaddr_to_index va (L + 1)) &&& RISCV_PTE_V = 0 ∨
          s.mem tb (vaddr_to_index va (L + 1)) &&& RISCV_PTE_PERM_MASK ≠ 0 := by
        rw [isLink] at hlk
        tauto
      rcases hcb : cb (L + 1) (vaddr_to_index va (L + 1))
          (s.mem tb (vaddr_to_index va (L + 1))) va err cbs
        with _ | ⟨r, p2, v2, e2, c2⟩
      · have htcb : traceCb cb (L + 1) (vaddr_to_index va (L + 1))
            (s.mem tb (vaddr_to_index va (L + 1))) va err (cbs, tr) = none := by
          rw [traceCb]
          simp [hcb]
        refine ⟨[], ?_, by simp, by simp⟩
        rw [walk_loop_cb_none (traceCb cb) hlk htcb]
        simp [stepVisits]
      · have htcb : traceCb cb (L + 1) (vaddr_to_index va (L + 1))
            (s.mem tb (vaddr_to_index va (L + 1))) va err (cbs, tr) = some (r, p2, v2, e2,
              (c2, tr ++ [⟨L + 1, vaddr_to_index va (L + 1),
                s.mem tb (vaddr_to_index va (L + 1)), va⟩])) := by
          rw [traceCb]
          simp [hcb]
        cases r
        · exact ⟨[⟨L + 1, vaddr_to_index va (L + 1),
            s.mem tb (vaddr_to_index va (L + 1)), va⟩],
            by rw [walk_loop_cb_halt (traceCb cb) hlk htcb]; rfl,
            fun v hv => by
              rw [List.mem_singleton] at hv
              subst hv
              exact ⟨hstp, Nat.le_refl _⟩,
            by simp⟩
        · exact ⟨[⟨L + 1, vaddr_to_index va (L + 1),
            s.mem tb (vaddr_to_index va (L + 1)), va⟩],
            by rw [walk_loop_cb_restart (traceCb cb) hlk htcb]; rfl,
            fun v hv => by
              rw [List.mem_singleton] at hv
              subst hv
              exact ⟨hstp, Nat.le_refl _⟩,
            by simp⟩
        · exact ⟨[⟨L + 1, vaddr_to_index va (L + 1),
            s.mem tb (vaddr_to_index va (L + 1)), va⟩],
            by rw [walk_loop_cb_commit_restart (traceCb cb) hlk htcb]; rfl,
            fun v hv => by
              rw [List.mem_singleton] at hv
              subst hv
              exact ⟨hstp, Nat.le_refl _⟩,
            by simp⟩
        · exact ⟨[⟨L + 1, vaddr_to_index va (L + 1),
            s.mem tb (vaddr_to_index va (L + 1)), va⟩],
            by rw [walk_loop_cb_commit_halt (traceCb cb) hlk htcb]; rfl,
            fun v hv => by
              rw [List.mem_singleton] at hv
              subst hv
              exact ⟨hstp, Nat.le_refl _⟩,
            by simp⟩
        · rcases hal : s.free with _ | ⟨pa, rest⟩
          · exact ⟨[⟨L + 1, vaddr_to_index va (L + 1),
              s.mem tb (vaddr_to_index va (L + 1)), va⟩],
              by rw [walk_loop_cb_alloc_nomem (traceCb cb) hlk htcb hal]; rfl,
              fun v hv => by
                rw [List.mem_singleton] at hv
                subst hv
                exact ⟨hstp, Nat.le_refl _⟩,
              by simp⟩
          · rw [walk_loop_cb_alloc_step (traceCb cb) hlk htcb hal]
            obtain ⟨ds, h1, h2, h3⟩ := walk_loop_trace cb L v2
              { s with
                mem := writeSlot (zeroTable s.mem pa) tb (vaddr_to_index va (L + 1))
                  (RISCV_PTE_PPN_TO_PTE pa ||| RISCV_PTE_V),
                free := rest } pa e2 c2
              (tr ++ [⟨L + 1, vaddr_to_index va (L + 1),
                s.mem tb (vaddr_to_index va (L + 1)), va⟩])
            refine ⟨⟨L + 1, vaddr_to_index va (L + 1),
              s.mem tb (vaddr_to_index va (L + 1)), va⟩ :: ds, ?_, ?_, ?_⟩
            · rw [h1, List.append_assoc]
              rfl
            · intro v hv
              rcases List.mem_cons.mp hv with hv | hv
              · subst hv
                exact ⟨hstp, Nat.le_refl _⟩
              · exact ⟨(h2 v hv).1, Nat.le_succ_of_le (h2 v hv).2⟩
            · rw [List.chain'_cons']
              refine ⟨?_, h3⟩
              intro y hy
              have hym : y ∈ ds := List.mem_of_mem_head? hy
              exact Nat.lt_succ_of_le (h2 y hym).2

/-- Everything a whole walk appends to the log is a stopping point. -/
theorem walk_trace {σ : Type} (cb : PageWalkCb σ) :
    ∀ (fuel : Nat) (va root : Nat) (s : MMUState) (err : Int) (cbs : σ)
      (tr : List Visit),
    ∃ ds, walkVisits (riscv_pt_walk (traceCb cb) fuel va root s err (cbs, tr)) =
        tr ++ ds ∧
      ∀ v ∈ ds, v.pte &&& RISCV_PTE_V = 0 ∨ v.pte &&& RISCV_PTE_PERM_MASK ≠ 0
  | 0, va, root, s, err, cbs, tr => ⟨[], by simp [riscv_pt_walk, walkVisits], by simp⟩
  | fuel + 1, va, root, s, err, cbs, tr => by
    rw [riscv_pt_walk_succ]
    obtain ⟨ds, h1, h2, _⟩ := walk_loop_trace cb 2 va s root err cbs tr
    rcases hres : riscv_pt_walk_loop (traceCb cb) 2 va s root err (cbs, tr) with
      ⟨e, s2, c2⟩ | ⟨v2, e2, s2, c2⟩ | ⟨s2, c2⟩
    · rw [hres] at h1
      exact ⟨ds, h1, fun v hv => (h2 v hv).1⟩
    · rw [hres] at h1
      obtain ⟨c2a, c2tr⟩ := c2
      have hc2tr : c2tr = tr ++ ds := h1
      subst hc2tr
      obtain ⟨ds2, h21, h22⟩ := walk_trace cb fuel v2 root s2 e2 c2a (tr ++ ds)
      refine ⟨ds ++ ds2, ?_, ?_⟩
      · show walkVisits (riscv_pt_walk (traceCb cb) fuel v2 root s2 e2 (c2a, tr ++ ds)) =
          tr ++ (ds ++ ds2)
        rw [h21, List.append_assoc]
      · intro v hv
        rcases List.mem_append.mp hv with hv | hv
        · exact (h2 v hv).1
        · exact h22 v hv
    · rw [hres] at h1
      exact ⟨ds, h1, fun v hv => (h2 v hv).1⟩

/-! ## ASID probe lemmas -/

/-- The mask the probe reads back is exactly the hardware-implemented ASID
bits, independent of the pre-probe register value. -/
theorem satp_probe_mask (hwAsid v : Nat) :
    ((satp_csr_write hwAsid (v ||| (RISCV_SATP_ASID_MASK <<< RISCV_SATP_ASID_SHIFT))) >>>
      RISCV_SATP_ASID_SHIFT) &&& RISCV_SATP_ASID_MASK = RISCV_SATP_ASID_MASK &&& hwAsid := by
  rw [satp_csr_write, not64]
  apply Nat.eq_of_testBit_eq
  intro i
  rw [show RISCV_SATP_ASID_MASK = 2 ^ 16 - 1 from by norm_num [RISCV_SATP_ASID_MASK],
    show RISCV_SATP_ASID_SHIFT = 44 from rfl]
  simp only [Nat.testBit_and, Nat.testBit_or, Nat.testBit_xor, Nat.testBit_shiftLeft,
    Nat.testBit_shiftRight, Nat.testBit_two_pow_sub_one, Nat.add_sub_cancel_left]
  by_cases hi : i < 16
  · have h44 : 44 ≤ 44 + i := by omega
    have h64 : 44 + i < 64 := by omega
    simp [hi, h44, h64]
  · simp [hi]

/-- In the all-zero memory every table is empty, so the only reachable table
is the root itself. -/
theorem tablesBelow_const_zero (l t : Nat) : tablesBelow (fun _ _ => 0) l t = [t] := by
  cases l with
  | zero => rfl
  | succ l =>
    rw [tablesBelow_succ]
    have h : ∀ j ∈ List.range RISCV_MMU_PT_ENTRIES,
        (if (fun _ _ => (0 : Nat)) t j &&& RISCV_PTE_V ≠ 0 ∧
            (fun _ _ => (0 : Nat)) t j &&& RISCV_PTE_PERM_MASK = 0 then
          tablesBelow (fun _ _ => 0) l (RISCV_PTE_PPN ((fun _ _ => (0 : Nat)) t j))
        else []) = ([] : List Nat) := by
      intro j _
      rw [if_neg]
      simp
    rw [flatMap_congr h]
    simp

/-! # The claims -/

/-- Claim C6: for every virtual address outside the address space's
`[base, base+size)` interval, `arch_mmu_query` returns `ERR_OUT_OF_RANGE`,
regardless of the contents of the page-table structure (the state `s` is
arbitrary; the walk is never started). -/
theorem c6_query_out_of_range_rejected (a : arch_aspace) (va : Nat) (s : MMUState)
    (hpos : 1 ≤ a.base + a.size) (hsp : a.base + a.size ≤ 2 ^ 64)
    (hout : va < a.base ∨ a.base + a.size ≤ va) :
    arch_mmu_query a va s = .done ERR_OUT_OF_RANGE none none := by
  have hlim : aspace_limit a = a.base + a.size - 1 := aspace_limit_eq hpos hsp
  rw [arch_mmu_query, if_pos (by omega)]

theorem c6_witness :
    arch_mmu_query ⟨4096, 4096, 0, 0⟩ 0 ⟨fun _ _ => 12345, [], []⟩ =
      .done ERR_OUT_OF_RANGE none none :=
  c6_query_out_of_range_rejected ⟨4096, 4096, 0, 0⟩ 0 ⟨fun _ _ => 12345, [], []⟩
    (by decide) (by decide) (by decide)

/-- Claim C8: the ASID probe is idempotent and restores the translation
control register.  Given that the pre-probe `satp` content is a hardware
value (a fixed point of the modelled CSR write), one probe leaves `satp`
unchanged, records exactly the hardware-implemented ASID bits, and a second
probe run from the post-probe state returns the identical result. -/
theorem c8_asid_probe_idempotent (hwAsid satp0 : Nat)
    (hfix : satp_csr_write hwAsid satp0 = satp0) :
    (riscv_early_mmu_init hwAsid satp0).1 = satp0 ∧
    (riscv_early_mmu_init hwAsid satp0).2 = RISCV_SATP_ASID_MASK &&& hwAsid ∧
    riscv_early_mmu_init hwAsid (riscv_early_mmu_init hwAsid satp0).1 =
      riscv_early_mmu_init hwAsid satp0 := by
  have h1 : (riscv_early_mmu_init hwAsid satp0).1 = satp0 := hfix
  refine ⟨h1, ?_, by rw [h1]⟩
  exact satp_probe_mask hwAsid satp0

theorem c8_witness :
    satp_csr_write 0xffff 0 = 0 ∧
    ((riscv_early_mmu_init 0xffff 0).1 = 0 ∧
      (riscv_early_mmu_init 0xffff 0).2 = RISCV_SATP_ASID_MASK &&& 0xffff ∧
      riscv_early_mmu_init 0xffff (riscv_early_mmu_init 0xffff 0).1 =
        riscv_early_mmu_init 0xffff 0) :=
  ⟨by decide, c8_asid_probe_idempotent 0xffff 0 (by decide)⟩

/-- Claim C4 (corrected reading of "regardless of outcome": the only
non-returning outcome of the unmap walk is a kernel panic): for every
`arch_mmu_unmap` call with `count > 0` and an in-bounds start address,
either the walk panics (large-page leaf or corrupt tree — the call never
returns), or the call returns and a TLB range invalidation over exactly the
full originally requested range `(vaddr, count)` has been recorded before
returning. -/
theorem c4_unmap_flushes_requested_range (a : arch_aspace) (s : MMUState) (va count : Nat)
    (hcnt : 0 < count) (hlo : a.base ≤ va) (hhi : va ≤ aspace_limit a) :
    arch_mmu_unmap a va count s = .panic ∨
    ∃ s2, arch_mmu_unmap a va count s = .done NO_ERROR s2 ∧
      s2.flushes = (va, count) :: s.flushes := by
  have hnb : ¬ (va < a.base ∨ aspace_limit a < va) := by omega
  rw [arch_mmu_unmap, if_neg (by omega : ¬ count = 0), if_neg hnb]
  rcases unmap_walk a.pt_phys count va s NO_ERROR hcnt with
    ⟨s2, c2, heq⟩ | ⟨s2, c2, heq, hf, hfl⟩
  · rw [heq]
    exact Or.inl rfl
  · rw [heq]
    refine Or.inr ⟨riscv_tlb_flush_vma_range va count s2, rfl, ?_⟩
    rw [riscv_tlb_flush_vma_range, if_neg (by omega : ¬ count = 0)]
    dsimp only
    rw [hfl]

theorem c4_witness :
    arch_mmu_unmap ⟨0, 2 ^ 39, 0, 4096⟩ 0 1 ⟨fun _ _ => 0, [], []⟩ = .panic ∨
    ∃ s2, arch_mmu_unmap ⟨0, 2 ^ 39, 0, 4096⟩ 0 1 ⟨fun _ _ => 0, [], []⟩ =
        .done NO_ERROR s2 ∧ s2.flushes = (0, 1) :: ([] : List (Nat × Nat)) :=
  c4_unmap_flushes_requested_range ⟨0, 2 ^ 39, 0, 4096⟩ ⟨fun _ _ => 0, [], []⟩ 0 1
    (by decide) (Nat.zero_le _) (Nat.zero_le _)

/-- Claim C5: unmapping an in-bounds range of never-mapped pages succeeds
with `NO_ERROR`, writes nothing to the page tables, and a subsequent query
at every page of the range reports `ERR_NOT_FOUND`. -/
theorem c5_unmap_hole_succeeds (a : arch_aspace) (s : MMUState) (va count : Nat)
    (hcnt : 0 < count) (hlo : a.base ≤ va)
    (hhi : va + count * 4096 ≤ a.base + a.size) (hsp : a.base + a.size ≤ 2 ^ 64)
    (hholes : ∀ i, i < count → view s.mem 2 a.pt_phys (va + i * 4096) = .hole) :
    ∃ s2, arch_mmu_unmap a va count s = .done NO_ERROR s2 ∧ s2.mem = s.mem ∧
      ∀ i, i < count →
        arch_mmu_query a (va + i * 4096) s2 = .done ERR_NOT_FOUND none none := by
  have hlim : aspace_limit a = a.base + a.size - 1 := aspace_limit_eq (by omega) hsp
  have hnb : ¬ (va < a.base ∨ aspace_limit a < va) := by omega
  have hwalk := unmap_walk_holes a.pt_phys count va s NO_ERROR hcnt (by omega) hholes
  have hmem : (riscv_tlb_flush_vma_range va count s).mem = s.mem := by
    rw [riscv_tlb_flush_vma_range, if_neg (by omega : ¬ count = 0)]
  refine ⟨riscv_tlb_flush_vma_range va count s, ?_, hmem, ?_⟩
  · rw [arch_mmu_unmap, if_neg (by omega : ¬ count = 0), if_neg hnb, hwalk]
  · intro i hi
    have hin2 : ¬ (va + i * 4096 < a.base ∨ aspace_limit a < va + i * 4096) := by omega
    refine arch_mmu_query_hole a _ _ hin2 ?_
    rw [hmem]
    exact hholes i hi

theorem c5_witness :
    ∃ s2, arch_mmu_unmap ⟨0, 2 ^ 39, 0, 4096⟩ 8192 2 ⟨fun _ _ => 0, [], []⟩ =
        .done NO_ERROR s2 ∧ s2.mem = (fun _ _ => 0 : Mem) ∧
      ∀ i, i < 2 →
        arch_mmu_query ⟨0, 2 ^ 39, 0, 4096⟩ (8192 + i * 4096) s2 =
          .done ERR_NOT_FOUND none none :=
  c5_unmap_hole_succeeds ⟨0, 2 ^ 39, 0, 4096⟩ ⟨fun _ _ => 0, [], []⟩ 8192 2
    (by decide) (by decide) (by decide) (by decide) (by decide)

/-- Claim C2 (code bug): `arch_mmu_map` on a page that already holds a valid
leaf does not return `ERR_ALREADY_EXISTS` — the `map_cb` visitor hits
`PANIC_UNIMPLEMENTED_MSG` on every valid entry before the
`*err = ERR_ALREADY_EXISTS; return HALT;` lines, which are unreachable.  The
call panics instead of failing gracefully. -/
theorem c2_map_on_mapped_page_panics (a : arch_aspace) (s : MMUState)
    (va pa count flags : Nat) (l pte : Nat) (hcnt : 0 < count)
    (hin : ¬ (va < a.base ∨ aspace_limit a < va))
    (hleaf : view s.mem 2 a.pt_phys va = .leaf l pte) :
    arch_mmu_map a va pa count flags s = .panic := by
  obtain ⟨t, hfs, hv, rfl⟩ := view_leaf_elim hleaf
  obtain ⟨c, rfl⟩ : ∃ c, count = c + 1 := ⟨count - 1, by omega⟩
  obtain ⟨_, _, hstop⟩ := findStop_stop a.pt_phys hfs
  have hcb : map_cb a flags l (vaddr_to_index va l) (s.mem t (vaddr_to_index va l)) va
      NO_ERROR (pa, c + 1) = none := by
    rw [map_cb]
    simp [hv]
  rw [arch_mmu_map, if_neg (by omega : ¬ c + 1 = 0), if_neg hin, riscv_pt_walk_succ,
    walk_loop_factor (map_cb a flags) a.pt_phys NO_ERROR (pa, c + 1) hfs,
    walk_loop_cb_none (map_cb a flags) hstop hcb]

theorem c2_witness :
    arch_mmu_map ⟨0, 2 ^ 39, 0, 4096⟩ 0 20480 1 0
      ⟨fun t i => if t = 4096 ∧ i = 0 then 15 else 0, [], []⟩ = .panic :=
  c2_map_on_mapped_page_panics ⟨0, 2 ^ 39, 0, 4096⟩
    ⟨fun t i => if t = 4096 ∧ i = 0 then 15 else 0, [], []⟩ 0 20480 1 0 2 15
    (by decide) (by decide) (by decide)

/-- Claim C3 (corrected): `arch_mmu_map` bounds-checks only the range's
start address — the `TODO: make sure that vaddr isn't out of range` in the
source is real.  When the start address itself is outside
`[base, base+size)` the call returns `ERR_OUT_OF_RANGE` with the state
untouched; a range that starts in bounds but overruns the end of the space
is not rejected (see the accompanying counterexample). -/
theorem c3_map_out_of_range_checks_start_only (a : arch_aspace) (s : MMUState)
    (va pa count flags : Nat) (hcnt : 0 < count)
    (hpos : 1 ≤ a.base + a.size) (hsp : a.base + a.size ≤ 2 ^ 64)
    (hout : va < a.base ∨ a.base + a.size ≤ va) :
    arch_mmu_map a va pa count flags s = .done ERR_OUT_OF_RANGE s := by
  have hlim : aspace_limit a = a.base + a.size - 1 := aspace_limit_eq hpos hsp
  rw [arch_mmu_map, if_neg (by omega : ¬ count = 0), if_pos (by omega :
    va < a.base ∨ aspace_limit a < va)]

theorem c3_witness :
    arch_mmu_map ⟨4096, 4096, 0, 0⟩ 0 16384 1 0 ⟨fun _ _ => 0, [], []⟩ =
      .done ERR_OUT_OF_RANGE ⟨fun _ _ => 0, [], []⟩ :=
  c3_map_out_of_range_checks_start_only ⟨4096, 4096, 0, 0⟩ ⟨fun _ _ => 0, [], []⟩
    0 16384 1 0 (by decide) (by decide) (by decide) (by decide)

/-- Claim C3, counterexample to the claimed behaviour: a two-page map whose
range starts in bounds but overruns `base + size` (space `[0, 8192)`, range
`[4096, 12288)`) is not rejected with `ERR_OUT_OF_RANGE`; the call succeeds
and returns `NO_ERROR`. -/
theorem c3_counterexample :
    (0 < 2 ∧ ¬ (4096 + 2 * 4096 ≤ 0 + 8192)) ∧
    ∃ s2, arch_mmu_map ⟨0, 8192, 0, 4096⟩ 4096 1048576 2 0
      ⟨fun _ _ => 0, [8192, 12288, 16384, 20480], []⟩ = .done NO_ERROR s2 ∧
      NO_ERROR ≠ ERR_OUT_OF_RANGE := by
  refine ⟨by omega, ?_⟩
  rcases map_walk_master ⟨0, 8192, 0, 4096⟩ 0 4096 2
      ⟨fun _ _ => 0, [8192, 12288, 16384, 20480], []⟩ 4096 1048576 NO_ERROR
      (by omega) (⟨1, rfl⟩) (⟨256, rfl⟩) (by norm_num) (by norm_num) (by norm_num)
      (by simp [tablesBelow_const_zero]) (by norm_num [tablesBelow_const_zero])
      (by decide) (by decide) (by decide) with
    ⟨s2, cnt2, d, hw, _, _, _, _, _, _, _, _⟩ |
    ⟨s2, cnt2, k, hwk, hk, hlen2, _, _, _, _, _⟩
  · refine ⟨s2, ?_, by decide⟩
    rw [arch_mmu_map, if_neg (by decide : ¬ (2 = 0)), if_neg (by decide), hw]
  · exfalso
    have h4 : (4 : Nat) ≤ 2 * k + 1 := by simpa using hlen2
    omega

/-- Claim C1: mapping an in-bounds, alias-free, previously unmapped page
range with permission-only flags and a sufficiently stocked page allocator
succeeds, and a subsequent query at every page of the range — at any
page-interior offset — returns the original physical address offset by the
page's position, with exactly the flags passed to the map call. -/
theorem c1_map_then_query_roundtrip (a : arch_aspace) (s : MMUState)
    (va pa count flags : Nat)
    (hcnt : 0 < count) (hva : 4096 ∣ va) (hpa : 4096 ∣ pa)
    (hlo : a.base ≤ va) (hhi : va + count * 4096 ≤ a.base + a.size)
    (hsp : a.base + a.size ≤ 2 ^ 64) (hbpa : pa + count * 4096 ≤ 2 ^ 64)
    (hno : va % 2 ^ 39 + count * 4096 ≤ 2 ^ 39) (hfl : flags &&& 28 = flags)
    (hwf : (tablesBelow s.mem 2 a.pt_phys).Nodup)
    (hfree : ∀ p ∈ s.free, p ∉ tablesBelow s.mem 2 a.pt_phys ∧ 4096 ∣ p)
    (hfnd : s.free.Nodup) (hflen : 2 * count ≤ s.free.length)
    (hholes : ∀ i, i < count → view s.mem 2 a.pt_phys (va + i * 4096) = .hole) :
    ∃ s2, arch_mmu_map a va pa count flags s = .done NO_ERROR s2 ∧
      ∀ i, i < count → ∀ off, off < 4096 →
        arch_mmu_query a (va + i * 4096 + off) s2 =
          .done NO_ERROR (some (pa + i * 4096 + off)) (some flags) := by
  have hlim : aspace_limit a = a.base + a.size - 1 := aspace_limit_eq (by omega) hsp
  have hbva : va + count * 4096 ≤ 2 ^ 64 := le_trans hhi hsp
  have hnb : ¬ (va < a.base ∨ aspace_limit a < va) := by omega
  rcases map_walk_master a flags a.pt_phys count s va pa NO_ERROR hcnt hva hpa hbva hbpa
      hno hwf hfree hfnd hfl hholes with
    ⟨s2, cnt2, d, hw, _, _, _, _, _, _, hleaf, _⟩ |
    ⟨s2, cnt2, k, hwk, hk, hlen2, _, _, _, _, _⟩
  · refine ⟨s2, ?_, ?_⟩
    · rw [arch_mmu_map, if_neg (by omega : ¬ count = 0), if_neg hnb, hw]
    · intro i hi off hoff
      have hin2 : ¬ (va + i * 4096 + off < a.base ∨
          aspace_limit a < va + i * 4096 + off) := by omega
      have hpai : (4096 : Nat) ∣ pa + i * 4096 := dvd_add hpa ⟨i, by ring⟩
      have hvv : view s2.mem 2 a.pt_phys (va + i * 4096 + off) =
          .leaf 0 (map_leaf_pte a flags (pa + i * 4096)) := by
        rw [view_eq_of_canPage (canPage_offset hva hoff) (by omega) a.pt_phys]
        exact hleaf i hi
      rw [arch_mmu_query_leaf a _ s2 hin2 hvv]
      have hmask : (va + i * 4096 + off) &&& page_mask_per_level 0 = off := by
        rw [page_mask_zero, show (4095 : Nat) = 2 ^ 12 - 1 from by norm_num,
          Nat.and_pow_two_sub_one_eq_mod]
        omega
      have h12 : (2 : Nat) ^ 12 ∣ pa + i * 4096 := by
        rw [show (2 : Nat) ^ 12 = 4096 from by norm_num]
        exact hpai
      rw [hmask, map_leaf_pte_ppn a hfl hpai, map_leaf_pte_flags a _ hfl,
        or_eq_add h12 (show off < 2 ^ 12 from by omega)]
  · exact absurd hflen (by omega)

theorem c1_witness :
    ∃ s2, arch_mmu_map ⟨0, 2 ^ 39, 0, 4096⟩ 0 16384 1 0
        ⟨fun _ _ => 0, [8192, 12288], []⟩ = .done NO_ERROR s2 ∧
      ∀ i, i < 1 → ∀ off, off < 4096 →
        arch_mmu_query ⟨0, 2 ^ 39, 0, 4096⟩ (0 + i * 4096 + off) s2 =
          .done NO_ERROR (some (16384 + i * 4096 + off)) (some 0) :=
  c1_map_then_query_roundtrip ⟨0, 2 ^ 39, 0, 4096⟩ ⟨fun _ _ => 0, [8192, 12288], []⟩
    0 16384 1 0 (by decide) (by decide) (by decide) (by decide) (by decide) (by decide)
    (by decide) (by decide) (by decide) (by simp [tablesBelow_const_zero])
    (by norm_num [tablesBelow_const_zero]) (by decide) (by decide) (by decide)

/-- Claim C9: a successful map over a range changes no translation outside
the range — for every virtual address not in `[vaddr, vaddr+count*4096)`,
`arch_mmu_query` answers identically before and after the map call
(out-of-bounds addresses keep rejecting, in-bounds addresses keep their old
view; newly installed link entries are invisible to queries outside the
range as long as the space spans at most one canonical `2^39`-byte block). -/
theorem c9_map_frame_outside_range (a : arch_aspace) (s : MMUState)
    (va pa count flags : Nat)
    (hcnt : 0 < count) (hva : 4096 ∣ va) (hpa : 4096 ∣ pa)
    (hlo : a.base ≤ va) (hhi : va + count * 4096 ≤ a.base + a.size)
    (hsp : a.base + a.size ≤ 2 ^ 64) (hsz : a.size ≤ 2 ^ 39)
    (hbpa : pa + count * 4096 ≤ 2 ^ 64)
    (hno : va % 2 ^ 39 + count * 4096 ≤ 2 ^ 39) (hfl : flags &&& 28 = flags)
    (hwf : (tablesBelow s.mem 2 a.pt_phys).Nodup)
    (hfree : ∀ p ∈ s.free, p ∉ tablesBelow s.mem 2 a.pt_phys ∧ 4096 ∣ p)
    (hfnd : s.free.Nodup) (hflen : 2 * count ≤ s.free.length)
    (hholes : ∀ i, i < count → view s.mem 2 a.pt_phys (va + i * 4096) = .hole) :
    ∃ s2, arch_mmu_map a va pa count flags s = .done NO_ERROR s2 ∧
      ∀ w, w < va ∨ va + count * 4096 ≤ w →
        arch_mmu_query a w s2 = arch_mmu_query a w s := by
  have hlim : aspace_limit a = a.base + a.size - 1 := aspace_limit_eq (by omega) hsp
  have hbva : va + count * 4096 ≤ 2 ^ 64 := le_trans hhi hsp
  have hnb : ¬ (va < a.base ∨ aspace_limit a < va) := by omega
  rcases map_walk_master a flags a.pt_phys count s va pa NO_ERROR hcnt hva hpa hbva hbpa
      hno hwf hfree hfnd hfl hholes with
    ⟨s2, cnt2, d, hw, _, _, _, _, _, _, _, hframe⟩ |
    ⟨s2, cnt2, k, hwk, hk, hlen2, _, _, _, _, _⟩
  · refine ⟨s2, ?_, ?_⟩
    · rw [arch_mmu_map, if_neg (by omega : ¬ count = 0), if_neg hnb, hw]
    · intro w hw2
      by_cases hwin : w < a.base ∨ aspace_limit a < w
      · simp only [arch_mmu_query, if_pos hwin]
      · have hne : ∀ i, i < count → canPage w ≠ canPage (va + i * 4096) := fun i hi =>
          canPage_frame_ne hva hlo hhi hsz (by omega) (by omega) hw2 hi
        rw [arch_mmu_query_char a w s2 hwin, arch_mmu_query_char a w s hwin,
          hframe w hne]
  · exact absurd hflen (by omega)

theorem c9_witness :
    ∃ s2, arch_mmu_map ⟨0, 2 ^ 39, 0, 4096⟩ 4096 32768 1 0
        ⟨fun _ _ => 0, [8192, 12288], []⟩ = .done NO_ERROR s2 ∧
      ∀ w, w < 4096 ∨ 4096 + 1 * 4096 ≤ w →
        arch_mmu_query ⟨0, 2 ^ 39, 0, 4096⟩ w s2 =
          arch_mmu_query ⟨0, 2 ^ 39, 0, 4096⟩ w ⟨fun _ _ => 0, [8192, 12288], []⟩ :=
  c9_map_frame_outside_range ⟨0, 2 ^ 39, 0, 4096⟩ ⟨fun _ _ => 0, [8192, 12288], []⟩
    4096 32768 1 0 (by decide) (by decide) (by decide) (by decide) (by decide)
    (by decide) (by decide) (by decide) (by decide) (by decide)
    (by simp [tablesBelow_const_zero]) (by norm_num [tablesBelow_const_zero])
    (by decide) (by decide) (by decide)

/-- Claim C10: `arch_mmu_map` is not atomic on allocation failure — each
page's leaf entry is committed before the walker restarts at the next page,
so when the call returns `ERR_NO_MEMORY` some prefix of `k < count` pages
remains mapped (queries on it succeed with the mapped translation) while the
remaining pages stay unmapped; nothing is rolled back. -/
theorem c10_map_oom_keeps_committed_prefix (a : arch_aspace) (s s2 : MMUState)
    (va pa count flags : Nat)
    (hcnt : 0 < count) (hva : 4096 ∣ va) (hpa : 4096 ∣ pa)
    (hlo : a.base ≤ va) (hhi : va + count * 4096 ≤ a.base + a.size)
    (hsp : a.base + a.size ≤ 2 ^ 64) (hbpa : pa + count * 4096 ≤ 2 ^ 64)
    (hno : va % 2 ^ 39 + count * 4096 ≤ 2 ^ 39) (hfl : flags &&& 28 = flags)
    (hwf : (tablesBelow s.mem 2 a.pt_phys).Nodup)
    (hfree : ∀ p ∈ s.free, p ∉ tablesBelow s.mem 2 a.pt_phys ∧ 4096 ∣ p)
    (hfnd : s.free.Nodup)
    (hholes : ∀ i, i < count → view s.mem 2 a.pt_phys (va + i * 4096) = .hole)
    (hres : arch_mmu_map a va pa count flags s = .done ERR_NO_MEMORY s2) :
    ∃ k, k < count ∧
      (∀ i, i < k → arch_mmu_query a (va + i * 4096) s2 =
        .done NO_ERROR (some (pa + i * 4096)) (some flags)) ∧
      ∀ i, k ≤ i → i < count →
        arch_mmu_query a (va + i * 4096) s2 = .done ERR_NOT_FOUND none none := by
  have hlim : aspace_limit a = a.base + a.size - 1 := aspace_limit_eq (by omega) hsp
  have hbva : va + count * 4096 ≤ 2 ^ 64 := le_trans hhi hsp
  have hnb : ¬ (va < a.base ∨ aspace_limit a < va) := by omega
  rcases map_walk_master a flags a.pt_phys count s va pa NO_ERROR hcnt hva hpa hbva hbpa
      hno hwf hfree hfnd hfl hholes with
    ⟨s2x, cnt2, d, hw, _, _, _, _, _, _, _, _⟩ |
    ⟨s2x, cnt2, k, hwk, hk, _, _, _, hlv, hhv, _⟩
  · have hmap : arch_mmu_map a va pa count flags s = .done NO_ERROR s2x := by
      rw [arch_mmu_map, if_neg (by omega : ¬ count = 0), if_neg hnb, hw]
    rw [hmap] at hres
    injection hres with h1 _
    exact absurd h1 (by decide)
  · have hmap : arch_mmu_map a va pa count flags s = .done ERR_NO_MEMORY s2x := by
      rw [arch_mmu_map, if_neg (by omega : ¬ count = 0), if_neg hnb, hwk]
    rw [hmap] at hres
    injection hres with _ h2
    subst h2
    refine ⟨k, hk, ?_, ?_⟩
    · intro i hi
      have hin2 : ¬ (va + i * 4096 < a.base ∨ aspace_limit a < va + i * 4096) := by
        omega
      have hpai : (4096 : Nat) ∣ pa + i * 4096 := dvd_add hpa ⟨i, by ring⟩
      rw [arch_mmu_query_leaf a _ _ hin2 (hlv i hi)]
      have hmask : (va + i * 4096) &&& page_mask_per_level 0 = 0 := by
        rw [page_mask_zero, show (4095 : Nat) = 2 ^ 12 - 1 from by norm_num,
          Nat.and_pow_two_sub_one_eq_mod]
        omega
      rw [hmask, map_leaf_pte_ppn a hfl hpai, map_leaf_pte_flags a _ hfl, Nat.or_zero]
    · intro i hki hi
      have hin2 : ¬ (va + i * 4096 < a.base ∨ aspace_limit a < va + i * 4096) := by
        omega
      exact arch_mmu_query_hole a _ _ hin2 (hhv i hki hi)

theorem c10_witness :
    ∃ k, k < 1 ∧
      (∀ i, i < k → arch_mmu_query ⟨0, 2 ^ 39, 0, 4096⟩ (0 + i * 4096)
          ⟨fun _ _ => 0, [], []⟩ =
        .done NO_ERROR (some (16384 + i * 4096)) (some 0)) ∧
      ∀ i, k ≤ i → i < 1 →
        arch_mmu_query ⟨0, 2 ^ 39, 0, 4096⟩ (0 + i * 4096) ⟨fun _ _ => 0, [], []⟩ =
          .done ERR_NOT_FOUND none none :=
  by
  have hstop : ¬ isLink (⟨fun _ _ => 0, [], []⟩ : MMUState).mem 4096
      (vaddr_to_index 0 2) := by
    rw [isLink]
    simp
  have hcb : map_cb ⟨0, 2 ^ 39, 0, 4096⟩ 0 2 (vaddr_to_index 0 2)
      ((⟨fun _ _ => 0, [], []⟩ : MMUState).mem 4096 (vaddr_to_index 0 2)) 0 NO_ERROR
      (16384, 1) = some (.ALLOC_PT,
        (⟨fun _ _ => 0, [], []⟩ : MMUState).mem 4096 (vaddr_to_index 0 2), 0, NO_ERROR,
        (16384, 1)) := by
    rw [map_cb]
    simp
  have hwalk : riscv_pt_walk (map_cb ⟨0, 2 ^ 39, 0, 4096⟩ 0) (0 + 1) 0 4096
      ⟨fun _ _ => 0, [], []⟩ NO_ERROR (16384, 1) =
      .done ERR_NO_MEMORY ⟨fun _ _ => 0, [], []⟩ (16384, 1) := by
    rw [riscv_pt_walk_succ,
      walk_loop_cb_alloc_nomem (map_cb ⟨0, 2 ^ 39, 0, 4096⟩ 0) hstop hcb rfl]
  have hwalk2 : riscv_pt_walk (map_cb ⟨0, 2 ^ 39, 0, 4096⟩ 0) 1 0 4096
      ⟨fun _ _ => 0, [], []⟩ NO_ERROR (16384, 1) =
      .done ERR_NO_MEMORY ⟨fun _ _ => 0, [], []⟩ (16384, 1) := hwalk
  have hres : arch_mmu_map ⟨0, 2 ^ 39, 0, 4096⟩ 0 16384 1 0 ⟨fun _ _ => 0, [], []⟩ =
      .done ERR_NO_MEMORY ⟨fun _ _ => 0, [], []⟩ := by
    rw [arch_mmu_map, if_neg (by decide : ¬ (1 = 0)), if_neg (by decide)]
    dsimp only
    rw [hwalk2]
  exact c10_map_oom_keeps_committed_prefix ⟨0, 2 ^ 39, 0, 4096⟩ ⟨fun _ _ => 0, [], []⟩
    ⟨fun _ _ => 0, [], []⟩ 0 16384 1 0 (by decide) (by decide) (by decide) (by decide)
    (by decide) (by decide) (by decide) (by decide) (by decide)
    (by simp [tablesBelow_const_zero]) (by simp) (by simp) (by decide) hres

/-- Claim C7: the walker consults its visitor only at stopping points — every
invocation (observed by wrapping an arbitrary visitor with a logging shim)
receives an entry that is either invalid (`V` clear) or a leaf (some
permission bit set), never a valid link, and within one descent the visited
levels strictly decrease, so no stopping point is visited twice in a
descent. -/
theorem c7_visitor_only_at_stopping_points {σ : Type} (cb : PageWalkCb σ)
    (fuel va root : Nat) (s : MMUState) (err : Int) (cbs : σ) :
    (∀ v ∈ walkVisits (riscv_pt_walk (traceCb cb) fuel va root s err (cbs, [])),
      v.pte &&& RISCV_PTE_V = 0 ∨ v.pte &&& RISCV_PTE_PERM_MASK ≠ 0) ∧
    ∀ (L va2 : Nat) (s2 : MMUState) (tb : Nat) (err2 : Int) (cbs2 : σ),
      List.Chain' (fun v1 v2 => v2.level < v1.level)
        (stepVisits (riscv_pt_walk_loop (traceCb cb) L va2 s2 tb err2 (cbs2, []))) := by
  constructor
  · obtain ⟨ds, h1, h2⟩ := walk_trace cb fuel va root s err cbs []
    rw [h1, List.nil_append]
    exact h2
  · intro L va2 s2 tb err2 cbs2
    obtain ⟨ds, h1, _, h3⟩ := walk_loop_trace cb L va2 s2 tb err2 cbs2 []
    rw [h1, List.nil_append]
    exact h3

theorem c7_witness :
    (⟨2, 0, 0, 0⟩ : Visit).pte &&& RISCV_PTE_V = 0 ∨
      (⟨2, 0, 0, 0⟩ : Visit).pte &&& RISCV_PTE_PERM_MASK ≠ 0 :=
  (c7_visitor_only_at_stopping_points
      (fun _ _ _ _ e c => some (.HALT, 0, 0, e, c)) 1 0 0
      ⟨fun _ _ => 0, [], []⟩ 0 (0 : Nat)).1
    ⟨2, 0, 0, 0⟩ (by with_unfolding_all decide)

end LkRiscvMmu
